import Mathlib

/-!
Verification of the ShabadOS/Database compilation and search layer.

The definitions below are shallow embeddings of `lib/models/Lines.js`
(the ranked search query builder) and `lib/build-json.js` (the JSON
compilation pipeline: bani range compilation, source flattening,
content/translation grouping, pagination).  External npm/builtin
functions (`is-ascii`, `gurmukhi-utils`' `toAscii`, `JSON.parse`,
lodash `groupBy`, `snakecase-keys`, JS object spread and `Array.sort`)
are modelled by their documented semantics; `toAscii` is kept opaque
(a function parameter), as the spec treats it.
-/

/-! ## SQL LIKE matching

SQLite evaluates `field LIKE pattern` where `%` matches any sequence of
characters and `_` matches one character.  The query builder only ever
produces patterns by concatenating the search term with `%`, so this is
the semantics that settles the search claims.
-/

/-- Character-list LIKE matcher: `%` matches any run, `_` one character,
anything else matches itself. -/
def likeChars : List Char → List Char → Bool
  | [], [] => true
  | [], _ :: _ => false
  | p :: ps, [] => if p = '%' then likeChars ps [] else false
  | p :: ps, c :: s =>
    if p = '%' then likeChars ps (c :: s) || likeChars (p :: ps) s
    else (p == '_' || p == c) && likeChars ps s
termination_by p s => (p.length, s.length)

/-- String-level LIKE: pattern against a candidate value. -/
def likeMatch (pattern s : String) : Bool := likeChars pattern.data s.data

/-! ## Model of `LineQueryBuilder` (`lib/models/Lines.js`) -/

/-- Mirror of `is-ascii`: every character in the 7-bit ASCII range. -/
def isAsciiStr (s : String) : Bool := s.data.all (fun c => c.toNat ≤ 127)

/-- The query produced by the builder: the column queried, the LIKE
pattern of the WHERE clause, and, when ordering was requested, the list
of LIKE patterns of the `CASE WHEN field LIKE ? THEN i` order clause. -/
structure LineQuery where
  field : String
  filterPattern : String
  orderPatterns : Option (List String)
deriving DecidableEq

/-- The `variants` array of `orderResults`:
`[ search, search%, %search% ]`. -/
def orderVariants (search : String) : List String :=
  [search, search ++ "%", "%" ++ search ++ "%"]

/-- The ASCII normalisation step of `genericSearch`:
`!isAscii( search ) ? toAscii( search ) : search`. -/
def normalizeSearch (toAscii : String → String) (search : String) : String :=
  if ¬ isAsciiStr search then toAscii search else search

/-- Mirror of `LineQueryBuilder.genericSearch( search, field, orderResults = true )`.
The third JS parameter defaults to `true` when the caller passes
`undefined`, modelled by `Option.getD true`. -/
def genericSearch (toAscii : String → String) (search field : String)
    (orderResults : Option Bool) : LineQuery :=
  let asciiSearch := normalizeSearch toAscii search
  let base : LineQuery := ⟨field, "%" ++ asciiSearch ++ "%", none⟩
  if orderResults.getD true then
    { base with orderPatterns := some (orderVariants asciiSearch) }
  else base

/-- Mirror of `LineQueryBuilder.firstLetters( letters, orderResults = true )`:
its own default applies before delegating to `genericSearch`. -/
def firstLetters (toAscii : String → String) (letters : String)
    (orderResults : Option Bool) : LineQuery :=
  genericSearch toAscii letters "first_letters" (some (orderResults.getD true))

/-- Mirror of `LineQueryBuilder.fullWord( phrase, orderResults )`: the
(possibly undefined) flag is passed through unchanged. -/
def fullWord (toAscii : String → String) (phrase : String)
    (orderResults : Option Bool) : LineQuery :=
  genericSearch toAscii phrase "gurmukhi" orderResults

/-- Value of the `CASE WHEN field LIKE p₀ THEN 0 … ELSE n END` clause on
one row: the index of the first pattern the row matches, `n` otherwise. -/
def matchRank (pats : List String) (s : String) : Nat :=
  match pats.findIdx? (fun p => likeMatch p s) with
  | some i => i
  | none => pats.length

/-- Semantics of executing a built query over the values of the queried
column: the WHERE clause filters, then ORDER BY (when present) sorts
ascending by the CASE rank.  SQL ORDER BY leaves ties in storage order,
modelled by a stable sort. -/
def runQuery (q : LineQuery) (rows : List String) : List String :=
  let filtered := rows.filter (fun s => likeMatch q.filterPattern s)
  match q.orderPatterns with
  | none => filtered
  | some pats =>
    filtered.insertionSort (fun a b => matchRank pats a ≤ matchRank pats b)

/-- Spec-side match-class index: 0 for exact equality to the term,
1 for a prefixed occurrence, 2 for an occurrence anywhere, 3 otherwise. -/
def matchClassIdx (term s : String) : Nat :=
  if s = term then 0
  else if term.data <+: s.data then 1
  else if term.data <:+: s.data then 2
  else 3

/-- A term is wildcard-free when it contains neither LIKE wildcard. -/
def WildFree (term : String) : Prop := ∀ c ∈ term.data, c ≠ '%' ∧ c ≠ '_'

instance (term : String) : Decidable (WildFree term) := by
  unfold WildFree; infer_instance

/-! ## Characterisation of the three LIKE patterns -/

/-- A lone `%` pattern matches every string. -/
theorem likeChars_pct : ∀ s, likeChars ['%'] s = true := by
  intro s
  induction s with
  | nil => simp [likeChars]
  | cons c s ih => simp [likeChars, ih]

/-- A wildcard-free pattern matches exactly itself. -/
theorem likeChars_nowild (w : List Char) (hw : ∀ c ∈ w, c ≠ '%' ∧ c ≠ '_') :
    ∀ s, (likeChars w s = true ↔ w = s) := by
  induction w with
  | nil => intro s; cases s <;> simp [likeChars]
  | cons p ps ih =>
    intro s
    have hp := hw p (List.mem_cons_self p ps)
    have ih2 := ih (fun c hc => hw c (List.mem_cons_of_mem p hc))
    cases s with
    | nil => simp [likeChars, hp.1]
    | cons c s => simp [likeChars, hp.1, hp.2, ih2 s]

/-- Pattern `w%` (with `w` wildcard-free) matches exactly the strings
starting with `w`. -/
theorem likeChars_startsWith (w : List Char) (hw : ∀ c ∈ w, c ≠ '%' ∧ c ≠ '_') :
    ∀ s, (likeChars (w ++ ['%']) s = true ↔ w <+: s) := by
  induction w with
  | nil => intro s; simp [likeChars_pct s, List.nil_prefix]
  | cons p ps ih =>
    intro s
    have hp := hw p (List.mem_cons_self p ps)
    have ih2 := ih (fun c hc => hw c (List.mem_cons_of_mem p hc))
    cases s with
    | nil => simp [likeChars, hp.1, List.prefix_nil]
    | cons c s => simp [likeChars, hp.1, hp.2, ih2 s, List.cons_prefix_cons]

/-- Matching against `%t` is matching `t` against some suffix. -/
theorem likeChars_anyHead (t : List Char) :
    ∀ s, (likeChars ('%' :: t) s = true ↔ ∃ s2, s2 <:+ s ∧ likeChars t s2 = true) := by
  intro s
  induction s with
  | nil =>
    constructor
    · intro h
      refine ⟨[], List.suffix_rfl, ?_⟩
      simpa [likeChars] using h
    · rintro ⟨s2, hsuf, h⟩
      rw [List.suffix_nil] at hsuf
      subst hsuf
      simpa [likeChars] using h
  | cons c s ih =>
    have hstep : likeChars ('%' :: t) (c :: s)
        = (likeChars t (c :: s) || likeChars ('%' :: t) s) := by
      simp [likeChars]
    rw [hstep]
    simp only [Bool.or_eq_true, ih, List.suffix_cons_iff]
    constructor
    · rintro (h | ⟨s2, hsuf, h⟩)
      · exact ⟨c :: s, Or.inl rfl, h⟩
      · exact ⟨s2, Or.inr hsuf, h⟩
    · rintro ⟨s2, hsuf | hsuf, h⟩
      · subst hsuf; exact Or.inl h
      · exact Or.inr ⟨s2, hsuf, h⟩

/-- Pattern `%w%` (with `w` wildcard-free) matches exactly the strings
containing `w` anywhere. -/
theorem likeChars_containsW (w : List Char) (hw : ∀ c ∈ w, c ≠ '%' ∧ c ≠ '_') :
    ∀ s, (likeChars ('%' :: (w ++ ['%'])) s = true ↔ w <:+: s) := by
  intro s
  rw [likeChars_anyHead]
  constructor
  · rintro ⟨s2, hsuf, h⟩
    rw [likeChars_startsWith w hw s2] at h
    exact List.infix_iff_prefix_suffix.mpr ⟨s2, h, hsuf⟩
  · intro h
    obtain ⟨t, hpre, hsuf⟩ := List.infix_iff_prefix_suffix.mp h
    exact ⟨t, hsuf, (likeChars_startsWith w hw t).mpr hpre⟩

/-- String versions of the three pattern characterisations. -/
theorem likeMatch_exact (term s : String) (hw : WildFree term) :
    (likeMatch term s = true ↔ s = term) := by
  rw [likeMatch, likeChars_nowild term.data hw s.data]
  exact ⟨fun h => (String.ext h.symm), fun h => by rw [h]⟩

theorem likeMatch_startsWith (term s : String) (hw : WildFree term) :
    (likeMatch (term ++ "%") s = true ↔ term.data <+: s.data) := by
  rw [likeMatch, String.data_append]
  exact likeChars_startsWith term.data hw s.data

theorem likeMatch_containsW (term s : String) (hw : WildFree term) :
    (likeMatch ("%" ++ term ++ "%") s = true ↔ term.data <:+: s.data) := by
  rw [likeMatch, String.data_append, String.data_append]
  exact likeChars_containsW term.data hw s.data

/-- The CASE rank over the three variants is exactly the spec's
match-class index, for wildcard-free normalized terms. -/
theorem matchRank_eq_classIdx (term s : String) (hw : WildFree term) :
    matchRank (orderVariants term) s = matchClassIdx term s := by
  by_cases h0 : s = term
  · have ht : likeMatch term s = true := (likeMatch_exact term s hw).mpr h0
    subst h0
    simp [matchRank, orderVariants, matchClassIdx, List.findIdx?_cons, ht]
  · have h0f : likeMatch term s = false := by
      cases hb : likeMatch term s
      · rfl
      · exact absurd ((likeMatch_exact term s hw).mp hb) h0
    by_cases h1 : term.data <+: s.data
    · have ht : likeMatch (term ++ "%") s = true :=
        (likeMatch_startsWith term s hw).mpr h1
      simp [matchRank, orderVariants, matchClassIdx, List.findIdx?_cons, h0f, ht, h0, h1]
    · have h1f : likeMatch (term ++ "%") s = false := by
        cases hb : likeMatch (term ++ "%") s
        · rfl
        · exact absurd ((likeMatch_startsWith term s hw).mp hb) h1
      by_cases h2 : term.data <:+: s.data
      · have ht : likeMatch ("%" ++ term ++ "%") s = true :=
          (likeMatch_containsW term s hw).mpr h2
        simp [matchRank, orderVariants, matchClassIdx, List.findIdx?_cons,
          h0f, h1f, ht, h0, h1, h2]
      · have h2f : likeMatch ("%" ++ term ++ "%") s = false := by
          cases hb : likeMatch ("%" ++ term ++ "%") s
          · rfl
          · exact absurd ((likeMatch_containsW term s hw).mp hb) h2
        simp [matchRank, orderVariants, matchClassIdx, List.findIdx?_cons,
          h0f, h1f, h2f, h0, h1, h2]

/-- C1: the builder always applies the contains filter `%term%`; the
result set is the contains-filtered rows whether or not ranking is on
(ranking only permutes); and with ranking on, rows come out ascending by
the index of the first match class they satisfy (exact 0, then the
prefixed class 1, then anywhere 2, anything else last). -/
theorem search_filter_and_ranking (toAscii : String → String) (search field : String)
    (o : Option Bool) (rows : List String)
    (hw : WildFree (normalizeSearch toAscii search)) :
    (genericSearch toAscii search field o).filterPattern
        = "%" ++ normalizeSearch toAscii search ++ "%" ∧
    (runQuery (genericSearch toAscii search field o) rows).Perm
        (rows.filter (fun s => likeMatch ("%" ++ normalizeSearch toAscii search ++ "%") s)) ∧
    (o.getD true = true →
      (runQuery (genericSearch toAscii search field o) rows).Pairwise
        (fun a b => matchClassIdx (normalizeSearch toAscii search) a
                  ≤ matchClassIdx (normalizeSearch toAscii search) b)) := by
  cases ho : o.getD true with
  | false =>
    refine ⟨by simp [genericSearch, ho], ?_, by simp [ho]⟩
    simp [genericSearch, ho, runQuery]
  | true =>
    refine ⟨by simp [genericSearch, ho], ?_, ?_⟩
    · have hperm := List.perm_insertionSort
        (fun a b => matchRank (orderVariants (normalizeSearch toAscii search)) a
                  ≤ matchRank (orderVariants (normalizeSearch toAscii search)) b)
        (rows.filter (fun s =>
          likeMatch ("%" ++ normalizeSearch toAscii search ++ "%") s))
      simpa [genericSearch, ho, runQuery] using hperm
    · intro _
      haveI hTot : IsTotal String
          (fun a b => matchRank (orderVariants (normalizeSearch toAscii search)) a
                    ≤ matchRank (orderVariants (normalizeSearch toAscii search)) b) :=
        ⟨fun a b => Nat.le_total _ _⟩
      haveI hTrans : IsTrans String
          (fun a b => matchRank (orderVariants (normalizeSearch toAscii search)) a
                    ≤ matchRank (orderVariants (normalizeSearch toAscii search)) b) :=
        ⟨fun a b c hab hbc => Nat.le_trans hab hbc⟩
      have hsorted := List.sorted_insertionSort
        (fun a b => matchRank (orderVariants (normalizeSearch toAscii search)) a
                  ≤ matchRank (orderVariants (normalizeSearch toAscii search)) b)
        (rows.filter (fun s =>
          likeMatch ("%" ++ normalizeSearch toAscii search ++ "%") s))
      have hpw : (runQuery (genericSearch toAscii search field o) rows).Pairwise
          (fun a b => matchRank (orderVariants (normalizeSearch toAscii search)) a
                    ≤ matchRank (orderVariants (normalizeSearch toAscii search)) b) := by
        simpa [genericSearch, ho, runQuery, List.Sorted] using hsorted
      refine hpw.imp ?_
      intro a b hab
      rwa [matchRank_eq_classIdx _ a hw, matchRank_eq_classIdx _ b hw] at hab

/-- Closed instance of the C1 theorem at a concrete search: rows
"ab" (exact), "abc" (prefixed), "xab" (anywhere) and non-matching "zz". -/
theorem search_filter_and_ranking_witness :
    (genericSearch (fun s => s) "ab" "gurmukhi" none).filterPattern
        = "%" ++ normalizeSearch (fun s => s) "ab" ++ "%" ∧
    (runQuery (genericSearch (fun s => s) "ab" "gurmukhi" none)
        ["xab", "zz", "abc", "ab"]).Perm
      (["xab", "zz", "abc", "ab"].filter (fun s =>
        likeMatch ("%" ++ normalizeSearch (fun s => s) "ab" ++ "%") s)) ∧
    ((none : Option Bool).getD true = true →
      (runQuery (genericSearch (fun s => s) "ab" "gurmukhi" none)
          ["xab", "zz", "abc", "ab"]).Pairwise
        (fun a b => matchClassIdx (normalizeSearch (fun s => s) "ab") a
                  ≤ matchClassIdx (normalizeSearch (fun s => s) "ab") b)) :=
  search_filter_and_ranking (fun s => s) "ab" "gurmukhi" none
    ["xab", "zz", "abc", "ab"] (by decide)

/-- C8: a search string with characters outside ASCII is transliterated
by the external normalisation function before anything else; an ASCII
string is used unchanged; and both the WHERE filter and the entire CASE
ranking are built from the normalized string alone. -/
theorem search_normalization (toAscii : String → String) (search field : String)
    (o : Option Bool) :
    (isAsciiStr search = false → normalizeSearch toAscii search = toAscii search) ∧
    (isAsciiStr search = true → normalizeSearch toAscii search = search) ∧
    (genericSearch toAscii search field o).filterPattern
        = "%" ++ normalizeSearch toAscii search ++ "%" ∧
    (o.getD true = true →
      (genericSearch toAscii search field o).orderPatterns
          = some (orderVariants (normalizeSearch toAscii search))) ∧
    (o.getD true = false →
      (genericSearch toAscii search field o).orderPatterns = none) := by
  refine ⟨?_, ?_, ?_, ?_, ?_⟩
  · intro h; simp [normalizeSearch, h]
  · intro h; simp [normalizeSearch, h]
  · cases ho : o.getD true <;> simp [genericSearch, ho]
  · intro ho; simp [genericSearch, ho]
  · intro ho; simp [genericSearch, ho]

/-- Closed instance of the C8 theorem on a non-ASCII Gurmukhi search
string, with a concrete stand-in for the opaque transliteration. -/
theorem search_normalization_witness :
    (isAsciiStr "ਸਤਿ" = false → normalizeSearch (fun _ => "siq") "ਸਤਿ" = (fun (_ : String) => "siq") "ਸਤਿ") ∧
    (isAsciiStr "ਸਤਿ" = true → normalizeSearch (fun _ => "siq") "ਸਤਿ" = "ਸਤਿ") ∧
    (genericSearch (fun _ => "siq") "ਸਤਿ" "gurmukhi" none).filterPattern
        = "%" ++ normalizeSearch (fun _ => "siq") "ਸਤਿ" ++ "%" ∧
    ((none : Option Bool).getD true = true →
      (genericSearch (fun _ => "siq") "ਸਤਿ" "gurmukhi" none).orderPatterns
          = some (orderVariants (normalizeSearch (fun _ => "siq") "ਸਤਿ"))) ∧
    ((none : Option Bool).getD true = false →
      (genericSearch (fun _ => "siq") "ਸਤਿ" "gurmukhi" none).orderPatterns = none) :=
  search_normalization (fun _ => "siq") "ਸਤਿ" "gurmukhi" none

/-- C9: omitting the ranking flag enables ranked ordering at both entry
points: `fullWord term` builds the same query as `fullWord term true`
(via `genericSearch`'s own default), `firstLetters term` the same as
`firstLetters term true` (via its declared default), and both carry the
three-variant order clause. -/
theorem default_ranking_enabled (toAscii : String → String) (term : String) :
    fullWord toAscii term none = fullWord toAscii term (some true) ∧
    firstLetters toAscii term none = firstLetters toAscii term (some true) ∧
    (fullWord toAscii term none).orderPatterns
        = some (orderVariants (normalizeSearch toAscii term)) ∧
    (firstLetters toAscii term none).orderPatterns
        = some (orderVariants (normalizeSearch toAscii term)) := by
  refine ⟨rfl, rfl, ?_, ?_⟩ <;> simp [fullWord, firstLetters, genericSearch]

/-! ## Generic list machinery shared by the compilation models -/

/-- Keys of a list in order of first occurrence, deduplicated — the key
order in which a SQL GROUP BY (resp. a JS object keyed by strings)
yields its groups in this pipeline. -/
def firstKeys {α : Type} [DecidableEq α] : List α → List α
  | [] => []
  | a :: rest => a :: firstKeys (rest.filter (fun x => x ≠ a))
termination_by l => l.length
decreasing_by
  simp only [List.length_cons]
  exact Nat.lt_succ_of_le (List.length_filter_le _ _)

theorem mem_firstKeys {α : Type} [DecidableEq α] :
    ∀ (l : List α) (x : α), x ∈ firstKeys l ↔ x ∈ l := by
  intro l
  induction l using firstKeys.induct with
  | case1 => intro x; simp [firstKeys]
  | case2 a rest ih =>
    intro x
    rw [firstKeys]
    simp only [List.mem_cons, ih]
    constructor
    · rintro (rfl | hx)
      · exact Or.inl rfl
      · exact Or.inr (List.mem_of_mem_filter hx)
    · rintro (rfl | hx)
      · exact Or.inl rfl
      · by_cases hxa : x = a
        · exact Or.inl hxa
        · exact Or.inr (List.mem_filter.mpr ⟨hx, by simp [hxa]⟩)

theorem firstKeys_nodup {α : Type} [DecidableEq α] :
    ∀ l : List α, (firstKeys l).Nodup := by
  intro l
  induction l using firstKeys.induct with
  | case1 => simp [firstKeys]
  | case2 a rest ih =>
    rw [firstKeys]
    refine List.Nodup.cons ?_ ih
    intro hmem
    have := List.of_mem_filter ((mem_firstKeys _ a).mp hmem)
    simp at this

/-- Sort ascending by a numeric key; models the stable
`.sort( ( { id: id1 }, { id: id2 } ) => id1 - id2 )` of `Array.sort`
as well as SQL ascending ORDER BY. -/
def sortK {α : Type} (key : α → Nat) (l : List α) : List α :=
  l.insertionSort (fun a b => key a ≤ key b)

theorem sortK_perm {α : Type} (key : α → Nat) (l : List α) :
    (sortK key l).Perm l :=
  List.perm_insertionSort _ l

theorem sortK_pairwise {α : Type} (key : α → Nat) (l : List α) :
    (sortK key l).Pairwise (fun a b => key a ≤ key b) := by
  haveI : IsTotal α (fun a b => key a ≤ key b) := ⟨fun a b => Nat.le_total _ _⟩
  haveI : IsTrans α (fun a b => key a ≤ key b) := ⟨fun a b c => Nat.le_trans⟩
  exact List.sorted_insertionSort _ l

/-- Two lists that are permutations of each other and both pairwise
ordered by an asymmetric relation are equal. -/
theorem perm_pairwise_eq {α : Type} {R : α → α → Prop}
    (hA : ∀ a b, R a b → R b a → False) :
    ∀ {l₁ l₂ : List α}, l₁.Perm l₂ → l₁.Pairwise R → l₂.Pairwise R → l₁ = l₂ := by
  intro l₁
  induction l₁ with
  | nil => intro l₂ hp _ _; exact hp.nil_eq
  | cons a t ih =>
    intro l₂ hp h1 h2
    cases l₂ with
    | nil => exact absurd hp.symm.nil_eq (by simp)
    | cons b t₂ =>
      by_cases hab : a = b
      · subst hab
        rw [ih hp.cons_inv h1.of_cons h2.of_cons]
      · have ha2 : a ∈ t₂ := by
          rcases List.mem_cons.mp (hp.subset (List.mem_cons_self a t)) with h | h
          · exact absurd h hab
          · exact h
        have hb1 : b ∈ t := by
          rcases List.mem_cons.mp (hp.symm.subset (List.mem_cons_self b t₂)) with h | h
          · exact absurd h.symm hab
          · exact h
        exact absurd (List.rel_of_pairwise_cons h1 hb1)
          (fun hRab => hA a b hRab (List.rel_of_pairwise_cons h2 ha2))

/-- Minimum of a list of naturals, `none` on the empty list — the SQL
`min(...)` aggregate. -/
def minN : List Nat → Option Nat
  | [] => none
  | x :: xs =>
    some (match minN xs with
          | none => x
          | some m => Nat.min x m)

/-- Maximum of a list of naturals, `none` on the empty list — the SQL
`max(...)` aggregate. -/
def maxN : List Nat → Option Nat
  | [] => none
  | x :: xs =>
    some (match maxN xs with
          | none => x
          | some m => Nat.max x m)

theorem minN_attained : ∀ (l : List Nat), l ≠ [] →
    ∃ m, minN l = some m ∧ m ∈ l ∧ ∀ x ∈ l, m ≤ x := by
  intro l
  induction l with
  | nil => intro h; exact absurd rfl h
  | cons x xs ih =>
    intro _
    cases hmx : minN xs with
    | none =>
      cases xs with
      | nil => exact ⟨x, by simp [minN], by simp, by simp⟩
      | cons y ys => simp [minN] at hmx
    | some m =>
      have hxs : xs ≠ [] := by
        intro h
        subst h
        simp [minN] at hmx
      obtain ⟨m2, hm2, hmem, hle⟩ := ih hxs
      rw [hmx] at hm2
      injection hm2 with hm2
      subst hm2
      refine ⟨Nat.min x m, by simp [minN, hmx], ?_, ?_⟩
      · by_cases hxm : x ≤ m
        · simp [Nat.min_def, hxm]
        · simp only [Nat.min_def, if_neg hxm]
          exact List.mem_cons_of_mem x hmem
      · intro z hz
        rcases List.mem_cons.mp hz with rfl | hz2
        · exact Nat.min_le_left _ _
        · exact Nat.le_trans (Nat.min_le_right _ _) (hle z hz2)

theorem maxN_attained : ∀ (l : List Nat), l ≠ [] →
    ∃ m, maxN l = some m ∧ m ∈ l ∧ ∀ x ∈ l, x ≤ m := by
  intro l
  induction l with
  | nil => intro h; exact absurd rfl h
  | cons x xs ih =>
    intro _
    cases hmx : maxN xs with
    | none =>
      cases xs with
      | nil => exact ⟨x, by simp [maxN], by simp, by simp⟩
      | cons y ys => simp [maxN] at hmx
    | some m =>
      have hxs : xs ≠ [] := by
        intro h
        subst h
        simp [maxN] at hmx
      obtain ⟨m2, hm2, hmem, hle⟩ := ih hxs
      rw [hmx] at hm2
      injection hm2 with hm2
      subst hm2
      refine ⟨Nat.max x m, by simp [maxN, hmx], ?_, ?_⟩
      · by_cases hxm : x ≤ m
        · simp only [Nat.max_def, if_pos hxm]
          exact List.mem_cons_of_mem x hmem
        · simp [Nat.max_def, hxm]
      · intro z hz
        rcases List.mem_cons.mp hz with rfl | hz2
        · exact Nat.le_max_left _ _
        · exact Nat.le_trans (hle z hz2) (Nat.le_max_right _ _)

/-! ## Model of `processBanis` (`lib/build-json.js`)

The range computation is the knex query: a CTE `bani_lines_ordered`
(the bani's membership joined to lines, ordered by `order_id`), a CTE
`bani_ranges` (`min(order_id)`, `max(order_id)` grouped by
`line_group`), and a final select joining each boundary `order_id` back
to its row, grouped by `l1.line_group`.  Rows are modelled as the
tuples `(order_id, line_id, line_group)` the query ranges over.
-/

/-- One row of `bani_lines_ordered` restricted to the fields the range
query touches. -/
structure BaniLine where
  orderId : Nat
  lineId : Nat
  lineGroup : Nat
deriving DecidableEq, Repr

/-- The `bani_ranges` CTE: per `line_group` (in first-occurrence
order), the min and max `order_id` of the group. -/
def baniRanges (rows : List BaniLine) : List (Nat × Nat × Nat) :=
  (firstKeys (rows.map (fun r => r.lineGroup))).map (fun g =>
    (g,
     (minN ((rows.filter (fun r => r.lineGroup == g)).map (fun r => r.orderId))).getD 0,
     (maxN ((rows.filter (fun r => r.lineGroup == g)).map (fun r => r.orderId))).getD 0))

/-- The final select: join `bani_ranges` with `bani_lines_ordered` as
`l1` on `l1.order_id = min_order_id` and as `l2` on
`l2.order_id = max_order_id`, producing
`(l1.line_group, l1.id, l2.id)` rows. -/
def baniJoin (rows : List BaniLine) : List (Nat × Nat × Nat) :=
  (baniRanges rows).flatMap (fun t =>
    (rows.filter (fun r => r.orderId == t.2.1)).flatMap (fun l1 =>
      (rows.filter (fun r => r.orderId == t.2.2)).map (fun l2 =>
        (l1.lineGroup, l1.lineId, l2.lineId))))

/-- The trailing `groupBy( 'l1.line_group' )`: one surviving row per
distinct `l1.line_group` value, projected to `(start_line, end_line)`. -/
def dedupByGroup : List (Nat × Nat × Nat) → List (Nat × Nat)
  | [] => []
  | t :: rest => (t.2.1, t.2.2) :: dedupByGroup (rest.filter (fun u => u.1 ≠ t.1))
termination_by l => l.length
decreasing_by
  simp only [List.length_cons]
  exact Nat.lt_succ_of_le (List.length_filter_le _ _)

/-- The `lines` value `processBanis` computes for one bani. -/
def processBaniLines (rows : List BaniLine) : List (Nat × Nat) :=
  dedupByGroup (baniJoin rows)

/-- Spec-side reference: the member tuple carrying the group's minimum
`order_id`. -/
def minimalTuple (grp : List BaniLine) : Option BaniLine :=
  grp.find? (fun r => decide (∀ x ∈ grp, r.orderId ≤ x.orderId))

/-- Spec-side reference: the member tuple carrying the group's maximum
`order_id`. -/
def maximalTuple (grp : List BaniLine) : Option BaniLine :=
  grp.find? (fun r => decide (∀ x ∈ grp, x.orderId ≤ r.orderId))

/-- Spec-side reference for the Range Compiler: one
`(start_line_id, end_line_id)` pair per distinct `line_group`, the
start (end) being the `line_id` of the tuple with the minimum (maximum)
`order_id` of that group. -/
def rangesSpec (rows : List BaniLine) : List (Nat × Nat) :=
  (firstKeys (rows.map (fun r => r.lineGroup))).map (fun g =>
    (((minimalTuple (rows.filter (fun r => r.lineGroup == g))).map (fun r => r.lineId)).getD 0,
     ((maximalTuple (rows.filter (fun r => r.lineGroup == g))).map (fun r => r.lineId)).getD 0))

/-! ## Correctness of the bani range pipeline -/

/-- Under strictly increasing `order_id`s, filtering on one row's
`order_id` returns exactly that row — the boundary joins are
one-to-one. -/
theorem filter_orderId_eq (rows : List BaniLine)
    (h : rows.Pairwise (fun a b => a.orderId < b.orderId))
    (r : BaniLine) (hr : r ∈ rows) :
    rows.filter (fun x => x.orderId == r.orderId) = [r] := by
  induction rows with
  | nil => cases hr
  | cons a t ih =>
    rcases List.mem_cons.mp hr with rfl | hrt
    · have hnil : t.filter (fun x => x.orderId == r.orderId) = [] := by
        rw [List.filter_eq_nil_iff]
        intro x hx
        have hlt := List.rel_of_pairwise_cons h hx
        simp only [beq_iff_eq]
        omega
      simp [List.filter_cons, hnil]
    · have hlt := List.rel_of_pairwise_cons h hrt
      have hne : (a.orderId == r.orderId) = false := by
        simp only [beq_eq_false_iff_ne, ne_eq]
        omega
      simp [List.filter_cons, hne, ih h.of_cons hrt]

/-- Strictly increasing `order_id`s are injective over the rows. -/
theorem orderId_inj (rows : List BaniLine)
    (h : rows.Pairwise (fun a b => a.orderId < b.orderId))
    {r r2 : BaniLine} (hr : r ∈ rows) (hr2 : r2 ∈ rows)
    (he : r2.orderId = r.orderId) : r2 = r := by
  have h1 := filter_orderId_eq rows h r hr
  have h2 : r2 ∈ rows.filter (fun x => x.orderId == r.orderId) :=
    List.mem_filter.mpr ⟨hr2, by simp [he]⟩
  rw [h1] at h2
  simpa using h2

/-- `find?` returns the unique satisfying element. -/
theorem find?_eq_of_unique {α : Type} (l : List α) (p : α → Bool) (x : α)
    (hx : x ∈ l) (hpx : p x = true) (huniq : ∀ y ∈ l, p y = true → y = x) :
    l.find? p = some x := by
  induction l with
  | nil => cases hx
  | cons a t ih =>
    by_cases hpa : p a = true
    · have ha : a = x := huniq a (List.mem_cons_self a t) hpa
      subst ha
      exact List.find?_cons_of_pos t hpa
    · have hxt : x ∈ t := by
        rcases List.mem_cons.mp hx with rfl | hmem
        · exact absurd hpx hpa
        · exact hmem
      rw [List.find?_cons_of_neg t hpa]
      exact ih hxt (fun y hy hpy => huniq y (List.mem_cons_of_mem a hy) hpy)

/-- A flatMap whose blocks are singletons is a map. -/
theorem flatMap_eq_map {α β : Type} (l : List α) (f : α → List β) (g : α → β)
    (h : ∀ a ∈ l, f a = [g a]) : l.flatMap f = l.map g := by
  induction l with
  | nil => rfl
  | cons a t ih =>
    rw [List.flatMap_cons, h a (List.mem_cons_self a t), List.map_cons,
      ih (fun x hx => h x (List.mem_cons_of_mem a hx)), List.singleton_append]

/-- The trailing group-by is the identity projection when the group
components are already distinct. -/
theorem dedupByGroup_of_nodup :
    ∀ l : List (Nat × Nat × Nat), (l.map (fun t => t.1)).Nodup →
      dedupByGroup l = l.map (fun t => (t.2.1, t.2.2)) := by
  intro l
  induction l with
  | nil => simp [dedupByGroup]
  | cons t rest ih =>
    intro hnd
    rw [List.map_cons] at hnd
    obtain ⟨hni, hnd2⟩ := List.nodup_cons.mp hnd
    have hrest : rest.filter (fun u => u.1 ≠ t.1) = rest := by
      rw [List.filter_eq_self]
      intro a ha
      simp only [ne_eq, decide_eq_true_eq]
      intro heq
      exact hni (List.mem_map.mpr ⟨a, ha, heq⟩)
    rw [dedupByGroup, hrest, ih hnd2, List.map_cons]

/-- The joined select produces exactly one row per distinct
`line_group`: its group, the `line_id` of its minimal tuple, and the
`line_id` of its maximal tuple. -/
theorem baniJoin_eq (rows : List BaniLine)
    (hs : rows.Pairwise (fun a b => a.orderId < b.orderId)) :
    baniJoin rows = (firstKeys (rows.map (fun r => r.lineGroup))).map (fun g =>
      (g,
       ((minimalTuple (rows.filter (fun r => r.lineGroup == g))).map (fun r => r.lineId)).getD 0,
       ((maximalTuple (rows.filter (fun r => r.lineGroup == g))).map (fun r => r.lineId)).getD 0)) := by
  unfold baniJoin baniRanges
  rw [List.flatMap_map]
  apply flatMap_eq_map
  intro g hg
  obtain ⟨r0, hr0mem, hr0g⟩ := List.mem_map.mp ((mem_firstKeys _ g).mp hg)
  have hr0grp : r0 ∈ rows.filter (fun r => r.lineGroup == g) :=
    List.mem_filter.mpr ⟨hr0mem, by simp [hr0g]⟩
  have hgrpne : rows.filter (fun r => r.lineGroup == g) ≠ [] := by
    intro h
    rw [h] at hr0grp
    cases hr0grp
  obtain ⟨mn, hmn, hmnmem, hmnle⟩ :=
    minN_attained ((rows.filter (fun r => r.lineGroup == g)).map (fun r => r.orderId))
      (by simpa using hgrpne)
  obtain ⟨rm, hrmgrp, hrmo⟩ := List.mem_map.mp hmnmem
  obtain ⟨mx, hmx, hmxmem, hmxge⟩ :=
    maxN_attained ((rows.filter (fun r => r.lineGroup == g)).map (fun r => r.orderId))
      (by simpa using hgrpne)
  obtain ⟨rM, hrMgrp, hrMo⟩ := List.mem_map.mp hmxmem
  have hrmrows : rm ∈ rows := List.mem_of_mem_filter hrmgrp
  have hrMrows : rM ∈ rows := List.mem_of_mem_filter hrMgrp
  have hrmg : rm.lineGroup = g := by simpa using List.of_mem_filter hrmgrp
  have hfmn : rows.filter (fun r => r.orderId == mn) = [rm] := by
    rw [← hrmo]
    exact filter_orderId_eq rows hs rm hrmrows
  have hfmx : rows.filter (fun r => r.orderId == mx) = [rM] := by
    rw [← hrMo]
    exact filter_orderId_eq rows hs rM hrMrows
  have hmt : minimalTuple (rows.filter (fun r => r.lineGroup == g)) = some rm := by
    apply find?_eq_of_unique _ _ rm hrmgrp
    · rw [decide_eq_true_iff]
      intro x hx
      rw [hrmo]
      exact hmnle x.orderId (List.mem_map.mpr ⟨x, hx, rfl⟩)
    · intro y hy hpy
      rw [decide_eq_true_iff] at hpy
      have h1 : y.orderId ≤ rm.orderId := hpy rm hrmgrp
      have h2 : rm.orderId ≤ y.orderId := by
        rw [hrmo]
        exact hmnle y.orderId (List.mem_map.mpr ⟨y, hy, rfl⟩)
      exact orderId_inj rows hs hrmrows (List.mem_of_mem_filter hy)
        (Nat.le_antisymm h1 h2)
  have hMt : maximalTuple (rows.filter (fun r => r.lineGroup == g)) = some rM := by
    apply find?_eq_of_unique _ _ rM hrMgrp
    · rw [decide_eq_true_iff]
      intro x hx
      rw [hrMo]
      exact hmxge x.orderId (List.mem_map.mpr ⟨x, hx, rfl⟩)
    · intro y hy hpy
      rw [decide_eq_true_iff] at hpy
      have h1 : rM.orderId ≤ y.orderId := hpy rM hrMgrp
      have h2 : y.orderId ≤ rM.orderId := by
        rw [hrMo]
        exact hmxge y.orderId (List.mem_map.mpr ⟨y, hy, rfl⟩)
      exact orderId_inj rows hs hrMrows (List.mem_of_mem_filter hy)
        (Nat.le_antisymm h2 h1)
  simp only [hmn, hmx, Option.getD_some, hfmn, hfmx, hmt, hMt,
    List.flatMap_cons, List.flatMap_nil, List.map_cons, List.map_nil,
    List.append_nil, List.singleton_append, hrmg]
  simp

/-- Shared correctness lemma: under strictly increasing `order_id`s,
the SQL pipeline computes exactly the spec-side ranges. -/
theorem processBaniLines_eq_rangesSpec (rows : List BaniLine)
    (hs : rows.Pairwise (fun a b => a.orderId < b.orderId)) :
    processBaniLines rows = rangesSpec rows := by
  unfold processBaniLines rangesSpec
  rw [baniJoin_eq rows hs]
  rw [dedupByGroup_of_nodup]
  · rw [List.map_map]
    rfl
  · rw [List.map_map]
    simpa [Function.comp_def] using firstKeys_nodup (rows.map (fun r => r.lineGroup))

/-- C2: for every pre-sorted bani membership, the Range Compiler emits
exactly one `(start_line_id, end_line_id)` pair per distinct
`line_group` — start and end being the `line_id`s of the group's
minimal- and maximal-`order_id` tuples — and an empty membership yields
an empty range list rather than an error. -/
theorem range_compiler_per_group (rows : List BaniLine)
    (hs : rows.Pairwise (fun a b => a.orderId < b.orderId)) :
    processBaniLines rows = rangesSpec rows ∧
    (processBaniLines rows).length
        = (firstKeys (rows.map (fun r => r.lineGroup))).length ∧
    processBaniLines [] = [] := by
  refine ⟨processBaniLines_eq_rangesSpec rows hs, ?_, by simp [processBaniLines,
    baniJoin, baniRanges, firstKeys, dedupByGroup]⟩
  rw [processBaniLines_eq_rangesSpec rows hs]
  unfold rangesSpec
  rw [List.length_map]

/-- The spec's Japji scenario: order_ids [5,6,7,12,13] with groups
[A,A,A,B,B] and line ids 105..113. -/
def japjiRows : List BaniLine :=
  [⟨5, 105, 1⟩, ⟨6, 106, 1⟩, ⟨7, 107, 1⟩, ⟨12, 112, 2⟩, ⟨13, 113, 2⟩]

/-- Closed instance of the C2 theorem on the spec's Japji example. -/
theorem range_compiler_per_group_witness :
    processBaniLines japjiRows = rangesSpec japjiRows ∧
    (processBaniLines japjiRows).length
        = (firstKeys (japjiRows.map (fun r => r.lineGroup))).length ∧
    processBaniLines [] = [] :=
  range_compiler_per_group japjiRows (by decide)

/-! ## The full `processBanis` stage and its observable output (C7) -/

/-- A row of the `banis` table as `processBanis` destructures it. -/
structure Bani where
  id : Nat
  nameEnglish : String
deriving DecidableEq

/-- Model of `processBanis` over the banis and each one's ordered
membership rows.  The pair collects everything the stage observably
produces: the console messages it logs, and per bani the compiled
`lines` ranges.  The source logs one `Compiling bani …` message per
bani and nothing else; no code path inspects contiguity. -/
def processBanis (banis : List (Bani × List BaniLine)) :
    List String × List (String × List (Nat × Nat)) :=
  (banis.map (fun p => "Compiling bani " ++ p.1.nameEnglish),
   banis.map (fun p => (p.1.nameEnglish, processBaniLines p.2)))

/-- A membership whose single line group is non-contiguous in
`order_id` (gap at 7 and 8). -/
def gappyRows : List BaniLine := [⟨5, 105, 1⟩, ⟨6, 106, 1⟩, ⟨9, 109, 1⟩]

/-- The contiguous counterpart of `gappyRows` with the same boundaries. -/
def fullRows : List BaniLine :=
  [⟨5, 105, 1⟩, ⟨6, 106, 1⟩, ⟨7, 107, 1⟩, ⟨8, 108, 1⟩, ⟨9, 109, 1⟩]

/-- Refutation of C7 as stated: compiling a bani whose line group is
non-contiguous records nothing — the stage's entire observable output,
message log included, is exactly the min/max range and is identical to
the output on a fully contiguous membership with the same boundaries,
so no IntegrityWarning is recorded or logged. -/
theorem range_warning_counterexample :
    processBanis [(⟨1, "Test Bani"⟩, gappyRows)]
        = (["Compiling bani Test Bani"], [("Test Bani", [(105, 109)])]) ∧
    processBanis [(⟨1, "Test Bani"⟩, gappyRows)]
        = processBanis [(⟨1, "Test Bani"⟩, fullRows)] := by
  constructor <;>
    simp [processBanis, processBaniLines, baniJoin, baniRanges, gappyRows,
      fullRows, firstKeys, dedupByGroup, minN, maxN]

/-- C7 amended: a non-contiguous line group never aborts compilation —
the stage still emits the best-effort min/max range for the group — but
no IntegrityWarning is recorded: the log holds exactly the per-bani
compiling message, whatever the membership looks like. -/
theorem range_compiler_no_warning (b : Bani) (rows : List BaniLine)
    (hs : rows.Pairwise (fun a b => a.orderId < b.orderId)) :
    processBanis [(b, rows)]
        = (["Compiling bani " ++ b.nameEnglish],
           [(b.nameEnglish, rangesSpec rows)]) := by
  unfold processBanis
  simp [processBaniLines_eq_rangesSpec rows hs]

/-- Closed instance of the amended C7 theorem at the non-contiguous
membership. -/
theorem range_compiler_no_warning_witness :
    processBanis [(⟨1, "Test Bani"⟩, gappyRows)]
        = (["Compiling bani " ++ (⟨1, "Test Bani"⟩ : Bani).nameEnglish],
           [((⟨1, "Test Bani"⟩ : Bani).nameEnglish, rangesSpec gappyRows)]) :=
  range_compiler_no_warning ⟨1, "Test Bani"⟩ gappyRows (by decide)

/-! ## Model of `processSources` (`lib/build-json.js`)

The stage eager-loads `sections.[subsections]`, sorts every level by
`id` with the stable comparator `( id1, id2 ) => id1 - id2`, strips
`id` / `sourceId` / `sectionId` while destructuring, and keeps the
display fields.  The trailing `snakeCaseKeys` + `Object.entries` fold
maps the array to itself in order and only renames keys, so it does not
touch ordering.
-/

/-- A subsection row with its join key. -/
structure SubsectionR where
  id : Nat
  sectionId : Nat
  nameEnglish : String
deriving DecidableEq

/-- A section row with its join key and loaded subsections. -/
structure SectionR where
  id : Nat
  sourceId : Nat
  nameEnglish : String
  subsections : List SubsectionR
deriving DecidableEq

/-- A source row with its loaded sections. -/
structure SourceR where
  id : Nat
  nameEnglish : String
  sections : List SectionR
deriving DecidableEq

/-- Flattened subsection: internal keys stripped. -/
structure SubOut where
  nameEnglish : String
deriving DecidableEq

/-- Flattened section: internal keys stripped, subsections nested. -/
structure SecOut where
  nameEnglish : String
  subsections : List SubOut
deriving DecidableEq

/-- Flattened source: internal key stripped, sections nested. -/
structure SrcOut where
  nameEnglish : String
  sections : List SecOut
deriving DecidableEq

/-- The per-section map: sort subsections ascending by `id`, strip
`id` and `sectionId`. -/
def flattenSection (c : SectionR) : SecOut :=
  ⟨c.nameEnglish,
   (sortK (fun x => x.id) c.subsections).map (fun x => ⟨x.nameEnglish⟩)⟩

/-- Mirror of `processSources`: sources sorted by `id`, each source's
sections sorted by `id` and flattened. -/
def processSources (ss : List SourceR) : List SrcOut :=
  (sortK (fun s => s.id) ss).map (fun s =>
    ⟨s.nameEnglish, (sortK (fun c => c.id) s.sections).map flattenSection⟩)

/-- Canonical form of a section: its subsections sorted by `id`. -/
def canonSection (c : SectionR) : SectionR :=
  ⟨c.id, c.sourceId, c.nameEnglish, sortK (fun x => x.id) c.subsections⟩

/-- Canonical form of a source: sections canonicalised, then sorted by
`id`. -/
def canonSource (s : SourceR) : SourceR :=
  ⟨s.id, s.nameEnglish, sortK (fun c => c.id) (s.sections.map canonSection)⟩

/-- Two retrievals present the same relational data when, after
canonicalising every nested collection, they are permutations: children
may arrive in any order at every level. -/
def SameData (ss₁ ss₂ : List SourceR) : Prop :=
  (ss₁.map canonSource).Perm (ss₂.map canonSource)

/-- Primary keys are unique: source ids globally, section ids within
each source. -/
def WellKeyed (ss : List SourceR) : Prop :=
  (ss.map (fun s => s.id)).Nodup ∧
  ∀ s ∈ ss, (s.sections.map (fun c => c.id)).Nodup

/-! ## Determinism of the Relation Flattener -/

/-- Pairwise ≤ on distinct keys is pairwise <. -/
theorem pairwise_lt_of_le_nodup {α : Type} (key : α → Nat) (l : List α)
    (h1 : l.Pairwise (fun a b => key a ≤ key b))
    (h2 : (l.map key).Nodup) :
    l.Pairwise (fun a b => key a < key b) := by
  have hne : l.Pairwise (fun a b => key a ≠ key b) := List.pairwise_map.mp h2
  exact (h1.and hne).imp (fun h => Nat.lt_of_le_of_ne h.1 h.2)

/-- Sorting by a key is invariant under permutations when keys are
distinct. -/
theorem sortK_eq_of_perm {α : Type} (key : α → Nat) (l₁ l₂ : List α)
    (hp : l₁.Perm l₂) (hnd : (l₁.map key).Nodup) :
    sortK key l₁ = sortK key l₂ := by
  have hnd1 : ((sortK key l₁).map key).Nodup :=
    (((sortK_perm key l₁).map key).nodup_iff).mpr hnd
  have hnd2 : ((sortK key l₂).map key).Nodup := by
    refine (((sortK_perm key l₂).map key).nodup_iff).mpr ?_
    exact ((hp.map key).nodup_iff).mp hnd
  exact perm_pairwise_eq
    (fun a b hab hba => Nat.lt_irrefl _ (Nat.lt_trans hab hba))
    ((sortK_perm key l₁).trans (hp.trans (sortK_perm key l₂).symm))
    (pairwise_lt_of_le_nodup key _ (sortK_pairwise key l₁) hnd1)
    (pairwise_lt_of_le_nodup key _ (sortK_pairwise key l₂) hnd2)

/-- Sorting commutes with a key-preserving map when keys are distinct. -/
theorem sortK_map_comm {α β : Type} (key : α → Nat) (keyb : β → Nat)
    (f : α → β) (hk : ∀ a, keyb (f a) = key a) (l : List α)
    (hnd : (l.map key).Nodup) :
    sortK keyb (l.map f) = (sortK key l).map f := by
  have hmapkeys : (l.map f).map keyb = l.map key := by
    rw [List.map_map]
    exact List.map_congr_left (fun a _ => hk a)
  have hndb : ((l.map f).map keyb).Nodup := by rw [hmapkeys]; exact hnd
  have hnd1 : ((sortK keyb (l.map f)).map keyb).Nodup :=
    (((sortK_perm keyb (l.map f)).map keyb).nodup_iff).mpr hndb
  have hperm : (sortK keyb (l.map f)).Perm ((sortK key l).map f) :=
    (sortK_perm keyb (l.map f)).trans ((sortK_perm key l).map f).symm
  have hp2 : ((sortK key l).map f).Pairwise (fun a b => keyb a < keyb b) := by
    refine List.pairwise_map.mpr ?_
    refine (pairwise_lt_of_le_nodup key _ (sortK_pairwise key l) ?_).imp ?_
    · exact (((sortK_perm key l).map key).nodup_iff).mpr hnd
    · intro a b h
      rw [hk a, hk b]
      exact h
  exact perm_pairwise_eq
    (fun a b hab hba => Nat.lt_irrefl _ (Nat.lt_trans hab hba))
    hperm
    (pairwise_lt_of_le_nodup keyb _ (sortK_pairwise keyb (l.map f)) hnd1)
    hp2

/-- The flattener factors through the canonical form. -/
theorem processSources_eq_canon (ss : List SourceR) (h : WellKeyed ss) :
    processSources ss = (sortK (fun s => s.id) (ss.map canonSource)).map (fun s =>
      ⟨s.nameEnglish, s.sections.map (fun c =>
        ⟨c.nameEnglish, c.subsections.map (fun x => ⟨x.nameEnglish⟩)⟩)⟩) := by
  unfold processSources
  rw [sortK_map_comm (fun s => s.id) (fun s => s.id) canonSource (fun a => rfl) ss h.1]
  rw [List.map_map]
  apply List.map_congr_left
  intro s hs
  have hsmem : s ∈ ss := (sortK_perm _ ss).subset hs
  have hnds := h.2 s hsmem
  simp only [Function.comp_apply, canonSource]
  congr 1
  rw [sortK_map_comm (fun c => c.id) (fun c => c.id) canonSection (fun a => rfl)
    s.sections hnds]
  rw [List.map_map]
  apply List.map_congr_left
  intro c _
  rfl

/-- C6: the Relation Flattener's output is a function of the data
alone — children ordered by internal key at every level, keys
stripped — so two runs over the same data, presented in any retrieval
order, produce identical output. -/
theorem flattener_order_canonical (ss₁ ss₂ : List SourceR)
    (h₁ : WellKeyed ss₁) (h₂ : WellKeyed ss₂) (hsame : SameData ss₁ ss₂) :
    processSources ss₁ = processSources ss₂ := by
  rw [processSources_eq_canon ss₁ h₁, processSources_eq_canon ss₂ h₂]
  have hcanon : sortK (fun s => s.id) (ss₁.map canonSource)
      = sortK (fun s => s.id) (ss₂.map canonSource) := by
    apply sortK_eq_of_perm _ _ _ hsame
    have : (ss₁.map canonSource).map (fun s => s.id) = ss₁.map (fun s => s.id) := by
      rw [List.map_map]
      exact List.map_congr_left (fun a _ => rfl)
    rw [this]
    exact h₁.1
  rw [hcanon]

/-- A retrieval of two sources with nested children out of order. -/
def srcRetrievalA : List SourceR :=
  [⟨2, "Sri Dasam Granth",
     [⟨21, 2, "Jaap", [⟨211, 21, "One"⟩, ⟨212, 21, "Two"⟩]⟩]⟩,
   ⟨1, "Sri Guru Granth Sahib Ji",
     [⟨12, 1, "Sec B", []⟩, ⟨11, 1, "Sec A", []⟩]⟩]

/-- The same data retrieved in a different order at every level. -/
def srcRetrievalB : List SourceR :=
  [⟨1, "Sri Guru Granth Sahib Ji",
     [⟨11, 1, "Sec A", []⟩, ⟨12, 1, "Sec B", []⟩]⟩,
   ⟨2, "Sri Dasam Granth",
     [⟨21, 2, "Jaap", [⟨212, 21, "Two"⟩, ⟨211, 21, "One"⟩]⟩]⟩]

/-- Closed instance of the C6 theorem on two scrambled retrievals of
the same hierarchy. -/
theorem flattener_order_canonical_witness :
    processSources srcRetrievalA = processSources srcRetrievalB :=
  flattener_order_canonical srcRetrievalA srcRetrievalB
    (by unfold WellKeyed; decide) (by unfold WellKeyed; decide)
    (by unfold SameData; decide)

/-! ## JSON decoding (model of the JS builtin `JSON.parse`)

`processLines` deserialises each translation's `additional_information`
with `JSON.parse`.  A malformed value makes `JSON.parse` throw a
SyntaxError whose message describes only the text being parsed, never
the surrounding row.  The recursive-descent parser below models
`JSON.parse` on the JSON fragment the database stores (null, booleans,
integers, strings, arrays, objects); an error result carries the
message of the exception thrown. -/

/-- Parsed JSON values. -/
inductive JValue where
  | jnull
  | jbool (b : Bool)
  | jnum (n : Int)
  | jstr (s : String)
  | jarr (elems : List JValue)
  | jobj (fields : List (String × JValue))

/-- JSON whitespace. -/
def isWsChar (c : Char) : Bool :=
  c == ' ' || c == '\t' || c == '\n' || c == '\r'

/-- Drop leading JSON whitespace. -/
def skipWs (s : List Char) : List Char := s.dropWhile isWsChar

/-- Body of a string literal, after the opening quote. -/
def strBody : List Char → Except String (String × List Char)
  | [] => .error "Unterminated string in JSON"
  | '\\' :: rest =>
    match rest with
    | [] => .error "Unterminated string in JSON"
    | e :: rest2 =>
      let ch : Except String Char :=
        if e = '"' then .ok '"'
        else if e = '\\' then .ok '\\'
        else if e = '/' then .ok '/'
        else if e = 'n' then .ok '\n'
        else if e = 't' then .ok '\t'
        else if e = 'r' then .ok '\r'
        else .error "Bad escaped character in JSON"
      match ch with
      | .error m => .error m
      | .ok c =>
        match strBody rest2 with
        | .error m => .error m
        | .ok (s, r) => .ok (⟨c :: s.data⟩, r)
  | '"' :: rest => .ok ("", rest)
  | c :: rest =>
    match strBody rest with
    | .error m => .error m
    | .ok (s, r) => .ok (⟨c :: s.data⟩, r)

/-- Value of a run of decimal digits. -/
def digitsToNat (ds : List Char) : Nat :=
  ds.foldl (fun n c => n * 10 + (c.toNat - 48)) 0

/-- An integer JSON number (the fragment the database uses). -/
def parseNum (s : List Char) : Except String (Int × List Char) :=
  match s with
  | '-' :: rest =>
    let ds := rest.takeWhile Char.isDigit
    if ds.isEmpty then .error "Unexpected token in JSON"
    else .ok (-(Int.ofNat (digitsToNat ds)), rest.drop ds.length)
  | _ =>
    let ds := s.takeWhile Char.isDigit
    if ds.isEmpty then .error "Unexpected token in JSON"
    else .ok (Int.ofNat (digitsToNat ds), s.drop ds.length)

/-- Consume an expected keyword. -/
def expectLit (lit : List Char) (s : List Char) : Option (List Char) :=
  if lit.isPrefixOf s then some (s.drop lit.length) else none

mutual

/-- One JSON value, by recursive descent with a character-count fuel. -/
def parseVal : Nat → List Char → Except String (JValue × List Char)
  | 0, _ => .error "JSON too deeply nested"
  | fuel + 1, s =>
    match skipWs s with
    | [] => .error "Unexpected end of JSON input"
    | c :: rest =>
      if c = '\x7b' then
        match skipWs rest with
        | '\x7d' :: r2 => .ok (.jobj [], r2)
        | r2 => match parseMembers fuel r2 with
          | .error m => .error m
          | .ok (kvs, r3) => .ok (.jobj kvs, r3)
      else if c = '[' then
        match skipWs rest with
        | ']' :: r2 => .ok (.jarr [], r2)
        | r2 => match parseElems fuel r2 with
          | .error m => .error m
          | .ok (vs, r3) => .ok (.jarr vs, r3)
      else if c = '"' then
        match strBody rest with
        | .error m => .error m
        | .ok (str, r) => .ok (.jstr str, r)
      else if c = 'n' then
        match expectLit ['u', 'l', 'l'] rest with
        | some r => .ok (.jnull, r)
        | none => .error "Unexpected token in JSON"
      else if c = 't' then
        match expectLit ['r', 'u', 'e'] rest with
        | some r => .ok (.jbool true, r)
        | none => .error "Unexpected token in JSON"
      else if c = 'f' then
        match expectLit ['a', 'l', 's', 'e'] rest with
        | some r => .ok (.jbool false, r)
        | none => .error "Unexpected token in JSON"
      else if c = '-' || c.isDigit then
        match parseNum (c :: rest) with
        | .error m => .error m
        | .ok (n, r) => .ok (.jnum n, r)
      else .error "Unexpected token in JSON"

/-- Members of an object, after the opening brace (non-empty case). -/
def parseMembers : Nat → List Char → Except String (List (String × JValue) × List Char)
  | 0, _ => .error "JSON too deeply nested"
  | fuel + 1, s =>
    match skipWs s with
    | [] => .error "Unexpected end of JSON input"
    | '"' :: rest =>
      match strBody rest with
      | .error m => .error m
      | .ok (k, r1) =>
        match skipWs r1 with
        | ':' :: r2 =>
          match parseVal fuel r2 with
          | .error m => .error m
          | .ok (v, r3) =>
            match skipWs r3 with
            | ',' :: r4 =>
              match parseMembers fuel r4 with
              | .error m => .error m
              | .ok (kvs, r5) => .ok ((k, v) :: kvs, r5)
            | '\x7d' :: r4 => .ok ([(k, v)], r4)
            | _ => .error "Expected , or \x7d after JSON member"
        | _ => .error "Expected : after key in JSON"
    | _ => .error "Unexpected token in JSON"

/-- Elements of an array, after the opening bracket (non-empty case). -/
def parseElems : Nat → List Char → Except String (List JValue × List Char)
  | 0, _ => .error "JSON too deeply nested"
  | fuel + 1, s =>
    match parseVal fuel s with
    | .error m => .error m
    | .ok (v, r1) =>
      match skipWs r1 with
      | ',' :: r2 =>
        match parseElems fuel r2 with
        | .error m => .error m
        | .ok (vs, r3) => .ok (v :: vs, r3)
      | ']' :: r2 => .ok ([v], r2)
      | _ => .error "Expected , or ] after JSON element"

end

/-- Model of `JSON.parse`: parse one value, insist on only trailing
whitespace. -/
def jsonParse (s : String) : Except String JValue :=
  match parseVal (s.length + 1) s.data with
  | .error m => .error m
  | .ok (v, rest) =>
    if (skipWs rest).isEmpty then .ok v
    else .error "Unexpected non-whitespace character after JSON data"

/-! ## JS object update and the Translation/Content Grouper -/

/-- JS object property write `{ ...o, [k]: v }`: if the key already
exists its value is replaced in place (JS objects keep the original key
position), otherwise the key is appended. -/
def jsInsert {α : Type} (l : List (String × α)) (k : String) (v : α) :
    List (String × α) :=
  if l.any (fun kv => kv.1 == k) then
    l.map (fun kv => if kv.1 == k then (k, v) else kv)
  else l ++ [(k, v)]

/-- A content row of one line, joined to its publication. -/
structure ContentRow where
  gurmukhi : String
  publicationName : String
deriving DecidableEq

/-- The `content.reduce` of `processLines`: a mapping from publication
name to that content's gurmukhi rendering. -/
def groupContent (rows : List ContentRow) : List (String × String) :=
  rows.foldl (fun acc r => jsInsert acc r.publicationName r.gurmukhi) []

/-- A translation row as the `translations.reduce` destructures it:
join keys, the language and translation-source display names, and the
translation's data fields. -/
structure TranslationRow where
  translationSourceId : Nat
  lineId : Nat
  languageName : String
  translationSourceName : String
  translation : String
  additionalInformation : String

/-- The leaf stored per (language, translation source): the remaining
translation fields with `additional_information` decoded. -/
structure TransOut where
  translation : String
  additionalInformation : JValue

/-- One step of the `translations.reduce` object construction:
`{ ...acc, [lang]: { ...acc[lang], [src]: value } }` (a missing
`acc[lang]` spreads as the empty object). -/
def jsInsert2 (acc : List (String × List (String × TransOut)))
    (lang src : String) (v : TransOut) :
    List (String × List (String × TransOut)) :=
  jsInsert acc lang
    (jsInsert (((acc.find? (fun kv => kv.1 == lang)).map (fun kv => kv.2)).getD [])
      src v)

/-- One reduce step: decode `additional_information` with `JSON.parse`
(throwing on failure), then write the leaf under language then source. -/
def transStep (acc : List (String × List (String × TransOut)))
    (r : TranslationRow) :
    Except String (List (String × List (String × TransOut))) :=
  match jsonParse r.additionalInformation with
  | .error m => .error m
  | .ok ai =>
    .ok (jsInsert2 acc r.languageName r.translationSourceName
      ⟨r.translation, ai⟩)

/-- The `translations.reduce` of `processLines`: group by language
name, then translation-source name; the first decode failure aborts the
whole fold with the JSON error. -/
def groupTranslations (rows : List TranslationRow) :
    Except String (List (String × List (String × TransOut))) :=
  rows.foldlM transStep []

/-- Refutation of C3's error attribution: two malformed rows that
differ in their Line and TranslationSource produce the very same
decode error — the raised error names neither the Line nor the
TranslationSource. -/
theorem decode_error_counterexample :
    groupTranslations [⟨1, 10, "English", "Source A", "t", "\x7b"⟩]
        = .error "Unexpected end of JSON input" ∧
    groupTranslations [⟨2, 99, "Spanish", "Source B", "u", "\x7b"⟩]
        = .error "Unexpected end of JSON input" :=
  ⟨rfl, rfl⟩

/-- C3 amended: a malformed `additional_information` aborts the
grouping of its dataset with the JSON decode error (which does not
identify the offending Line or TranslationSource), while the
well-formed value `"\x7b\x7d"` decodes to the empty structured value. -/
theorem decode_error_aborts (pre : List TranslationRow) (r : TranslationRow)
    (post : List TranslationRow) (e : String)
    (hpre : ∀ x ∈ pre, (jsonParse x.additionalInformation).isOk = true)
    (hr : jsonParse r.additionalInformation = .error e) :
    groupTranslations (pre ++ r :: post) = .error e ∧
    jsonParse "\x7b\x7d" = .ok (JValue.jobj []) := by
  refine ⟨?_, rfl⟩
  unfold groupTranslations
  have key : ∀ (pre2 : List TranslationRow)
      (acc : List (String × List (String × TransOut))),
      (∀ x ∈ pre2, (jsonParse x.additionalInformation).isOk = true) →
      List.foldlM transStep acc (pre2 ++ r :: post) = .error e := by
    intro pre2
    induction pre2 with
    | nil =>
      intro acc _
      simp only [List.nil_append, List.foldlM_cons]
      have hstep : transStep acc r = .error e := by
        simp [transStep, hr]
      rw [hstep]
      rfl
    | cons a t ih =>
      intro acc hp
      have ha := hp a (List.mem_cons_self a t)
      cases hja : jsonParse a.additionalInformation with
      | error m => rw [hja] at ha; cases ha
      | ok v =>
        simp only [List.cons_append, List.foldlM_cons]
        have hstep : transStep acc a
            = .ok (jsInsert2 acc a.languageName a.translationSourceName
                ⟨a.translation, v⟩) := by
          simp [transStep, hja]
        rw [hstep]
        exact ih _ (fun x hx => hp x (List.mem_cons_of_mem a hx))
  exact key pre [] hpre

/-- Closed instance of the amended C3 theorem at the malformed value. -/
theorem decode_error_aborts_witness :
    groupTranslations
        ([] ++ (⟨1, 10, "English", "Source A", "t", "\x7b"⟩ : TranslationRow) :: [])
        = .error "Unexpected end of JSON input" ∧
    jsonParse "\x7b\x7d" = .ok (JValue.jobj []) :=
  decode_error_aborts [] ⟨1, 10, "English", "Source A", "t", "\x7b"⟩ []
    "Unexpected end of JSON input" (fun x hx => absurd hx (List.not_mem_nil x)) rfl

/-! ## Properties of the JS object write -/

/-- Assoc lookup: the value at the first entry carrying the key. -/
def jsLookup {α : Type} (l : List (String × α)) (k : String) : Option α :=
  (l.find? (fun kv => kv.1 == k)).map (fun kv => kv.2)

/-- Writing a key leaves the key list unchanged when present, appends
it when new. -/
theorem keys_jsInsert {α : Type} (l : List (String × α)) (k : String) (v : α) :
    (jsInsert l k v).map Prod.fst
      = if k ∈ l.map Prod.fst then l.map Prod.fst else l.map Prod.fst ++ [k] := by
  unfold jsInsert
  by_cases hany : l.any (fun kv => kv.1 == k) = true
  · rw [if_pos hany]
    have hk : k ∈ l.map Prod.fst := by
      obtain ⟨kv, hkv, he⟩ := List.any_eq_true.mp hany
      exact List.mem_map.mpr ⟨kv, hkv, (eq_of_beq he)⟩
    rw [if_pos hk, List.map_map]
    apply List.map_congr_left
    intro kv _
    by_cases hke : (kv.1 == k) = true
    · simp only [Function.comp_apply, if_pos hke]
      exact (eq_of_beq hke).symm
    · simp only [Function.comp_apply, if_neg hke]
  · rw [if_neg hany]
    have hk : k ∉ l.map Prod.fst := by
      intro hmem
      obtain ⟨kv, hkv, he⟩ := List.mem_map.mp hmem
      exact hany (List.any_eq_true.mpr ⟨kv, hkv, by simp [he]⟩)
    rw [if_neg hk, List.map_append]
    rfl

/-- Key membership after a write. -/
theorem mem_keys_jsInsert {α : Type} (l : List (String × α)) (k k2 : String) (v : α) :
    (k2 ∈ (jsInsert l k v).map Prod.fst) ↔ k2 ∈ l.map Prod.fst ∨ k2 = k := by
  rw [keys_jsInsert]
  by_cases hk : k ∈ l.map Prod.fst
  · rw [if_pos hk]
    constructor
    · exact Or.inl
    · rintro (h | rfl)
      · exact h
      · exact hk
  · rw [if_neg hk]
    simp

/-- A write preserves distinctness of keys. -/
theorem nodup_keys_jsInsert {α : Type} (l : List (String × α)) (k : String) (v : α)
    (h : (l.map Prod.fst).Nodup) : ((jsInsert l k v).map Prod.fst).Nodup := by
  rw [keys_jsInsert]
  by_cases hk : k ∈ l.map Prod.fst
  · rw [if_pos hk]; exact h
  · rw [if_neg hk]
    rw [List.nodup_append]
    exact ⟨h, List.nodup_singleton k, by simpa using hk⟩

/-- Entry membership after a write: the old entries at other keys, plus
the new binding. -/
theorem mem_jsInsert {α : Type} (l : List (String × α)) (k : String) (v : α)
    (e : String × α) :
    e ∈ jsInsert l k v ↔ (e ∈ l ∧ e.1 ≠ k) ∨ e = (k, v) := by
  unfold jsInsert
  by_cases hany : l.any (fun kv => kv.1 == k) = true
  · rw [if_pos hany]
    rw [List.mem_map]
    constructor
    · rintro ⟨kv, hkv, he⟩
      by_cases hke : (kv.1 == k) = true
      · rw [if_pos hke] at he
        exact Or.inr he.symm
      · rw [if_neg hke] at he
        subst he
        exact Or.inl ⟨hkv, by simpa using hke⟩
    · rintro (⟨hmem, hne⟩ | rfl)
      · exact ⟨e, hmem, by simp [hne]⟩
      · obtain ⟨kv, hkv, he⟩ := List.any_eq_true.mp hany
        exact ⟨kv, hkv, by rw [if_pos he]⟩
  · rw [if_neg hany]
    rw [List.mem_append]
    constructor
    · rintro (h | h)
      · refine Or.inl ⟨h, ?_⟩
        intro hek
        exact hany (List.any_eq_true.mpr ⟨e, h, by simp [hek]⟩)
      · exact Or.inr (by simpa using h)
    · rintro (⟨hmem, _⟩ | rfl)
      · exact Or.inl hmem
      · exact Or.inr (by simp)

/-- Lookup after a write: the new value at the written key, unchanged
elsewhere. -/
theorem jsLookup_jsInsert {α : Type} (l : List (String × α)) (k k2 : String) (v : α) :
    jsLookup (jsInsert l k v) k2 = if k2 = k then some v else jsLookup l k2 := by
  unfold jsInsert jsLookup
  by_cases hany : l.any (fun kv => kv.1 == k) = true
  · rw [if_pos hany]
    by_cases hk2 : k2 = k
    · subst hk2
      rw [if_pos rfl]
      obtain ⟨kv0, hkv0, he0⟩ := List.any_eq_true.mp hany
      clear hany
      induction l with
      | nil => cases hkv0
      | cons a t ih =>
        rcases List.mem_cons.mp hkv0 with rfl | hmem
        · rw [List.map_cons, if_pos he0, List.find?_cons_of_pos _ (by simp)]
          rfl
        · by_cases hak : (a.1 == k2) = true
          · rw [List.map_cons, if_pos hak, List.find?_cons_of_pos _ (by simp)]
            rfl
          · rw [List.map_cons, if_neg hak,
              List.find?_cons_of_neg _ (by simpa using hak)]
            exact ih hmem
    · rw [if_neg hk2]
      clear hany
      induction l with
      | nil => rfl
      | cons a t ih =>
        by_cases hak : (a.1 == k) = true
        · rw [List.map_cons, if_pos hak,
            List.find?_cons_of_neg _ (by simp [Ne.symm hk2]),
            List.find?_cons_of_neg _ (by simp [(eq_of_beq hak) ▸ Ne.symm hk2])]
          exact ih
        · by_cases hak2 : (a.1 == k2) = true
          · rw [List.map_cons, if_neg hak,
              List.find?_cons_of_pos
                (List.map (fun kv => if (kv.1 == k) = true then (k, v) else kv) t) hak2,
              List.find?_cons_of_pos t hak2]
          · rw [List.map_cons, if_neg hak, List.find?_cons_of_neg _ (by simpa using hak2),
              List.find?_cons_of_neg _ (by simpa using hak2)]
            exact ih
  · rw [if_neg hany]
    have hnone : l.find? (fun kv => kv.1 == k) = none := by
      rw [List.find?_eq_none]
      intro kv hkv
      intro hbeq
      exact hany (List.any_eq_true.mpr ⟨kv, hkv, hbeq⟩)
    by_cases hk2 : k2 = k
    · subst hk2
      rw [if_pos rfl, List.find?_append, hnone]
      simp [List.find?_cons_of_pos]
    · rw [if_neg hk2, List.find?_append]
      have htail : List.find? (fun kv => kv.1 == k2) [(k, v)] = none := by
        simp [List.find?_cons_of_neg, Ne.symm hk2]
      rw [htail]
      cases l.find? (fun kv => kv.1 == k2) <;> rfl

/-! ## Counting the grouped content and translations (C5) -/

/-- Distinct entries cannot share a key when the key list is nodup. -/
theorem entry_unique {α : Type} :
    ∀ t : List (String × α), (t.map Prod.fst).Nodup →
      ∀ k (a b : α), (k, a) ∈ t → (k, b) ∈ t → a = b := by
  intro t
  induction t with
  | nil => intro _ k a b ha; cases ha
  | cons e rest ih =>
    intro hnd k a b ha hb
    rw [List.map_cons] at hnd
    obtain ⟨hni, hnd2⟩ := List.nodup_cons.mp hnd
    rcases List.mem_cons.mp ha with rfl | ha2
    · rcases List.mem_cons.mp hb with he | hb2
      · exact (congrArg Prod.snd he.symm)
      · exact absurd (List.mem_map.mpr ⟨(k, b), hb2, rfl⟩) hni
    · rcases List.mem_cons.mp hb with rfl | hb2
      · exact absurd (List.mem_map.mpr ⟨(k, a), ha2, rfl⟩) hni
      · exact ih hnd2 k a b ha2 hb2

/-- With distinct keys, lookup returns the entry's value. -/
theorem jsLookup_of_mem {α : Type} (t : List (String × α))
    (hnd : (t.map Prod.fst).Nodup) (k : String) (a : α) (hmem : (k, a) ∈ t) :
    jsLookup t k = some a := by
  unfold jsLookup
  rw [find?_eq_of_unique t _ (k, a) hmem (by simp)]
  · rfl
  · intro y hy hpy
    have hk : y.1 = k := eq_of_beq hpy
    have : y.2 = a := by
      refine entry_unique t hnd k y.2 a ?_ hmem
      rw [← hk]
      exact hy
    calc y = (y.1, y.2) := rfl
    _ = (k, a) := by rw [hk, this]

/-- Well-formed grouped translations: outer keys distinct and every
inner key list distinct. -/
def wfT (t : List (String × List (String × TransOut))) : Prop :=
  (t.map Prod.fst).Nodup ∧ ∀ e ∈ t, (e.2.map Prod.fst).Nodup

/-- The (language, translation source) leaf addresses of a grouped
structure. -/
def pairsOf (t : List (String × List (String × TransOut))) :
    List (String × String) :=
  t.flatMap (fun e => e.2.map (fun kv => (e.1, kv.1)))

theorem mem_pairsOf (t : List (String × List (String × TransOut)))
    (lg sr : String) :
    (lg, sr) ∈ pairsOf t ↔ ∃ inner, (lg, inner) ∈ t ∧ sr ∈ inner.map Prod.fst := by
  unfold pairsOf
  rw [List.mem_flatMap]
  constructor
  · rintro ⟨e, he, hmem⟩
    obtain ⟨kv, hkv, heq⟩ := List.mem_map.mp hmem
    obtain ⟨h1, h2⟩ := Prod.mk.injEq .. ▸ heq
    refine ⟨e.2, ?_, ?_⟩
    · rw [← h1]
      exact he
    · rw [← h2]
      exact List.mem_map.mpr ⟨kv, hkv, rfl⟩
  · rintro ⟨inner, hin, hsr⟩
    obtain ⟨kv, hkv, hkeq⟩ := List.mem_map.mp hsr
    exact ⟨(lg, inner), hin, List.mem_map.mpr ⟨kv, hkv, by rw [hkeq]⟩⟩

/-- Leaf addresses are distinct in a well-formed structure. -/
theorem pairsOf_nodup :
    ∀ t, wfT t → (pairsOf t).Nodup := by
  intro t
  induction t with
  | nil => intro _; simp [pairsOf]
  | cons e rest ih =>
    intro hwf
    obtain ⟨hnd, hinner⟩ := hwf
    rw [List.map_cons] at hnd
    obtain ⟨hni, hnd2⟩ := List.nodup_cons.mp hnd
    have hrest : wfT rest :=
      ⟨hnd2, fun x hx => hinner x (List.mem_cons_of_mem e hx)⟩
    unfold pairsOf
    rw [List.flatMap_cons, List.nodup_append]
    refine ⟨?_, ih hrest, ?_⟩
    · have : e.2.map (fun kv => (e.1, kv.1))
          = (e.2.map Prod.fst).map (fun k => (e.1, k)) := by
        rw [List.map_map]
        rfl
      rw [this]
      exact (hinner e (List.mem_cons_self e rest)).map
        (fun a b hab => by simpa using congrArg Prod.snd hab)
    · intro p hp hp2
      obtain ⟨kv, _, hkeq⟩ := List.mem_map.mp hp
      have hp1 : p.1 = e.1 := by rw [← hkeq]
      obtain ⟨inner, hin, _⟩ :=
        (mem_pairsOf rest p.1 p.2).mp (by rw [Prod.mk.eta]; exact hp2)
      exact hni (List.mem_map.mpr ⟨(p.1, inner), hin, hp1⟩)

/-- One reduce step preserves well-formedness. -/
theorem wfT_jsInsert2 (acc : List (String × List (String × TransOut)))
    (lg sr : String) (v : TransOut) (h : wfT acc) :
    wfT (jsInsert2 acc lg sr v) := by
  obtain ⟨hnd, hinner⟩ := h
  constructor
  · exact nodup_keys_jsInsert _ _ _ hnd
  · intro e he
    rcases (mem_jsInsert _ _ _ e).mp he with ⟨hmem, _⟩ | rfl
    · exact hinner e hmem
    · apply nodup_keys_jsInsert
      cases hf : acc.find? (fun kv => kv.1 == lg) with
      | none => simp [hf]
      | some kv =>
        have := hinner kv (List.mem_of_find?_eq_some hf)
        simpa [hf] using this

/-- One reduce step adds exactly the written (language, source) pair to
the leaf addresses. -/
theorem mem_pairsOf_jsInsert2 (acc : List (String × List (String × TransOut)))
    (lg sr : String) (v : TransOut) (h : wfT acc) (p : String × String) :
    p ∈ pairsOf (jsInsert2 acc lg sr v) ↔ p ∈ pairsOf acc ∨ p = (lg, sr) := by
  obtain ⟨hnd, hinner⟩ := h
  have hp : p = (p.1, p.2) := rfl
  rw [hp, mem_pairsOf]
  constructor
  · rintro ⟨inner, hin, hsr⟩
    rcases (mem_jsInsert _ _ _ _).mp hin with ⟨hmem, _⟩ | heq
    · exact Or.inl ((mem_pairsOf acc p.1 p.2).mpr ⟨inner, hmem, hsr⟩)
    · obtain ⟨h1, h2⟩ := Prod.mk.injEq .. ▸ heq
      subst h2
      rcases (mem_keys_jsInsert _ _ _ _).mp hsr with hold | rfl
      · cases hf : acc.find? (fun kv => kv.1 == lg) with
        | none =>
          rw [hf] at hold
          simp at hold
        | some kv =>
          rw [hf] at hold
          have hold2 : p.2 ∈ kv.2.map Prod.fst := by simpa using hold
          have hkvb := @List.find?_some _ (fun kv => kv.1 == lg) kv acc hf
          have hkv1 : kv.1 = lg := eq_of_beq hkvb
          refine Or.inl ((mem_pairsOf acc p.1 p.2).mpr ⟨kv.2, ?_, hold2⟩)
          rw [h1, ← hkv1]
          exact List.mem_of_find?_eq_some hf
      · exact Or.inr (by rw [h1])
  · rintro (hold | heq)
    · obtain ⟨inner, hin, hsr⟩ := (mem_pairsOf acc p.1 p.2).mp hold
      by_cases hlg : p.1 = lg
      · subst hlg
        have hlook : jsLookup acc p.1 = some inner :=
          jsLookup_of_mem acc hnd p.1 inner hin
        have hOI : ((acc.find? (fun kv => kv.1 == p.1)).map
            (fun kv => kv.2)).getD [] = inner := by
          unfold jsLookup at hlook
          rw [hlook]
          rfl
        refine ⟨jsInsert inner sr v, ?_, ?_⟩
        · have : (p.1, jsInsert inner sr v) = (p.1,
              jsInsert (((acc.find? (fun kv => kv.1 == p.1)).map
                (fun kv => kv.2)).getD []) sr v) := by rw [hOI]
          rw [this]
          exact (mem_jsInsert _ _ _ _).mpr (Or.inr rfl)
        · rw [mem_keys_jsInsert]
          exact Or.inl hsr
      · refine ⟨inner, ?_, hsr⟩
        exact (mem_jsInsert _ _ _ _).mpr (Or.inl ⟨hin, hlg⟩)
    · obtain ⟨h1, h2⟩ := Prod.mk.injEq .. ▸ heq
      subst h1
      subst h2
      refine ⟨_, (mem_jsInsert _ _ _ _).mpr (Or.inr rfl), ?_⟩
      rw [mem_keys_jsInsert]
      exact Or.inr rfl

/-- A nodup list with the same members as `B` has `B.dedup.length`
elements. -/
theorem length_eq_dedup_of_mem_iff {α : Type} [DecidableEq α] (A B : List α)
    (hA : A.Nodup) (hmem : ∀ x, x ∈ A ↔ x ∈ B) : A.length = B.dedup.length := by
  have hperm : A.Perm B.dedup := by
    rw [List.perm_ext_iff_of_nodup hA (List.nodup_dedup B)]
    intro a
    rw [hmem a, List.mem_dedup]
  exact hperm.length_eq

/-- Fold invariant of the content grouper: keys stay distinct and
accumulate exactly the publication names seen. -/
theorem groupContent_aux (rows : List ContentRow) :
    ∀ acc : List (String × String), (acc.map Prod.fst).Nodup →
      ((rows.foldl (fun acc r => jsInsert acc r.publicationName r.gurmukhi) acc).map
          Prod.fst).Nodup ∧
      (∀ k, k ∈ (rows.foldl (fun acc r =>
            jsInsert acc r.publicationName r.gurmukhi) acc).map Prod.fst
          ↔ k ∈ acc.map Prod.fst ∨ k ∈ rows.map (fun r => r.publicationName)) := by
  induction rows with
  | nil =>
    intro acc h
    exact ⟨h, by simp⟩
  | cons r rest ih =>
    intro acc h
    rw [List.foldl_cons]
    obtain ⟨h1, h2⟩ :=
      ih (jsInsert acc r.publicationName r.gurmukhi) (nodup_keys_jsInsert _ _ _ h)
    refine ⟨h1, ?_⟩
    intro k
    rw [h2 k, mem_keys_jsInsert]
    simp only [List.map_cons, List.mem_cons]
    tauto

/-- Fold invariant of the content values: lookup is the last write. -/
theorem groupContent_lookup_aux (rows : List ContentRow) :
    ∀ (acc : List (String × String)) (k : String),
      jsLookup (rows.foldl (fun acc r =>
          jsInsert acc r.publicationName r.gurmukhi) acc) k
        = match rows.reverse.find? (fun r => r.publicationName == k) with
          | some r => some r.gurmukhi
          | none => jsLookup acc k := by
  induction rows with
  | nil => intro acc k; rfl
  | cons r rest ih =>
    intro acc k
    rw [List.foldl_cons, ih, List.reverse_cons, List.find?_append]
    cases hf : rest.reverse.find? (fun r => r.publicationName == k) with
    | some r2 => rfl
    | none =>
      by_cases hrk : (r.publicationName == k) = true
      · rw [@List.find?_cons_of_pos _ (fun r2 => r2.publicationName == k) r [] hrk,
          jsLookup_jsInsert, if_pos (eq_of_beq hrk).symm]
        rfl
      · rw [@List.find?_cons_of_neg _ (fun r2 => r2.publicationName == k) r [] hrk,
          jsLookup_jsInsert,
          if_neg (fun he => hrk (by rw [he]; exact beq_self_eq_true r.publicationName))]
        rfl

/-- Fold invariant of the translation grouper: the result is
well-formed and its leaf addresses are the accumulated
(language, source) pairs. -/
theorem groupTranslations_aux (rows : List TranslationRow) :
    ∀ acc, wfT acc →
      ∀ t, List.foldlM transStep acc rows = Except.ok t →
        wfT t ∧ (∀ p, p ∈ pairsOf t ↔ p ∈ pairsOf acc ∨
          p ∈ rows.map (fun r => (r.languageName, r.translationSourceName))) := by
  induction rows with
  | nil =>
    intro acc hacc t ht
    have heq : acc = t := by
      rw [List.foldlM_nil] at ht
      exact Except.ok.inj ht
    subst heq
    exact ⟨hacc, by simp⟩
  | cons r rest ih =>
    intro acc hacc t ht
    rw [List.foldlM_cons] at ht
    cases hj : jsonParse r.additionalInformation with
    | error m =>
      rw [show transStep acc r = .error m from by simp [transStep, hj]] at ht
      exact Except.noConfusion ht
    | ok ai =>
      rw [show transStep acc r
          = .ok (jsInsert2 acc r.languageName r.translationSourceName
              ⟨r.translation, ai⟩) from by simp [transStep, hj]] at ht
      have ht2 : List.foldlM transStep
          (jsInsert2 acc r.languageName r.translationSourceName
            ⟨r.translation, ai⟩) rest = .ok t := ht
      obtain ⟨hwt, hmem⟩ := ih _ (wfT_jsInsert2 _ _ _ _ hacc) t ht2
      refine ⟨hwt, ?_⟩
      intro p
      rw [hmem p, mem_pairsOf_jsInsert2 _ _ _ _ hacc p]
      simp only [List.map_cons, List.mem_cons]
      tauto

/-- C5: for a line with k distinct Publications among its content rows
and m distinct (Language, TranslationSource) pairs among its
translation rows, the grouped content is keyed exactly by the k
publication names (last write winning on duplicates) and the grouped
translations hold exactly m leaves, each nested under its language and
then its translation source. -/
theorem grouper_shape (crows : List ContentRow) (trows : List TranslationRow)
    (t : List (String × List (String × TransOut)))
    (hok : groupTranslations trows = Except.ok t) :
    ((groupContent crows).map Prod.fst).Nodup ∧
    (∀ k, k ∈ (groupContent crows).map Prod.fst
        ↔ k ∈ crows.map (fun r => r.publicationName)) ∧
    (groupContent crows).length
        = (crows.map (fun r => r.publicationName)).dedup.length ∧
    (∀ k, jsLookup (groupContent crows) k
        = match crows.reverse.find? (fun r => r.publicationName == k) with
          | some r => some r.gurmukhi
          | none => none) ∧
    wfT t ∧
    (∀ p, p ∈ pairsOf t
        ↔ p ∈ trows.map (fun r => (r.languageName, r.translationSourceName))) ∧
    (pairsOf t).length
        = (trows.map (fun r =>
            (r.languageName, r.translationSourceName))).dedup.length ∧
    (pairsOf t).length = (t.map (fun e => e.2.length)).sum := by
  obtain ⟨hnd, hmem⟩ := groupContent_aux crows [] (by simp)
  have hmem2 : ∀ k, k ∈ (groupContent crows).map Prod.fst
      ↔ k ∈ crows.map (fun r => r.publicationName) := by
    intro k
    unfold groupContent
    rw [hmem k]
    simp
  obtain ⟨hwt, hpairs⟩ := groupTranslations_aux trows []
    ⟨List.nodup_nil, fun e he => absurd he (List.not_mem_nil e)⟩ t hok
  have hpairs2 : ∀ p, p ∈ pairsOf t
      ↔ p ∈ trows.map (fun r => (r.languageName, r.translationSourceName)) := by
    intro p
    rw [hpairs p]
    simp [pairsOf]
  refine ⟨hnd, hmem2, ?_, ?_, hwt, hpairs2, ?_, ?_⟩
  · have hlen : (groupContent crows).length
        = ((groupContent crows).map Prod.fst).length := by
      rw [List.length_map]
    rw [hlen]
    exact length_eq_dedup_of_mem_iff _ _ hnd hmem2
  · intro k
    unfold groupContent
    rw [groupContent_lookup_aux crows [] k]
    cases crows.reverse.find? (fun r => r.publicationName == k) <;> rfl
  · exact length_eq_dedup_of_mem_iff _ _ (pairsOf_nodup t hwt) hpairs2
  · rw [pairsOf, List.length_flatMap]
    congr 1
    apply List.map_congr_left
    intro e _
    simp

/-- Concrete content rows: three rows over two distinct publications,
with a duplicate write to "SGPC". -/
def contentRowsEx : List ContentRow :=
  [⟨"g1", "SGPC"⟩, ⟨"g2", "Budh"⟩, ⟨"g3", "SGPC"⟩]

/-- Concrete translation rows: two sources under one language. -/
def transRowsEx : List TranslationRow :=
  [⟨1, 1, "English", "A", "t1", "\x7b\x7d"⟩,
   ⟨2, 1, "English", "B", "t2", "\x7b\x7d"⟩]

/-- The grouped translations of `transRowsEx`. -/
def transGroupedEx : List (String × List (String × TransOut)) :=
  [("English", [("A", ⟨"t1", JValue.jobj []⟩), ("B", ⟨"t2", JValue.jobj []⟩)])]

/-- Closed instance of the C5 theorem at the concrete rows. -/
theorem grouper_shape_witness :
    ((groupContent contentRowsEx).map Prod.fst).Nodup ∧
    (∀ k, k ∈ (groupContent contentRowsEx).map Prod.fst
        ↔ k ∈ contentRowsEx.map (fun r => r.publicationName)) ∧
    (groupContent contentRowsEx).length
        = (contentRowsEx.map (fun r => r.publicationName)).dedup.length ∧
    (∀ k, jsLookup (groupContent contentRowsEx) k
        = match contentRowsEx.reverse.find? (fun r => r.publicationName == k) with
          | some r => some r.gurmukhi
          | none => none) ∧
    wfT transGroupedEx ∧
    (∀ p, p ∈ pairsOf transGroupedEx
        ↔ p ∈ transRowsEx.map (fun r => (r.languageName, r.translationSourceName))) ∧
    (pairsOf transGroupedEx).length
        = (transRowsEx.map (fun r =>
            (r.languageName, r.translationSourceName))).dedup.length ∧
    (pairsOf transGroupedEx).length
        = (transGroupedEx.map (fun e => e.2.length)).sum :=
  grouper_shape contentRowsEx transRowsEx transGroupedEx rfl

/-! ## Model of the Pagination Grouper (C4)

`processLines` groups each source's shabads with lodash
`groupBy( shabads, ( { lines: [ first ] } ) => first.source_page )`,
reads `lastPage` as the final key of the resulting object, and pads
every page label with `page.padStart( lastPage.length, '0' )`.  JS
objects iterate integer-like keys in ascending numeric order, so the
groupBy object is modelled as an association list over the ascending
distinct pages. -/

/-- A line as pagination sees it. -/
structure PLine where
  sourcePage : Nat
deriving DecidableEq

/-- A composition carrying its compiled lines (ordered by `order_id`). -/
structure PShabad where
  name : String
  lines : List PLine
deriving DecidableEq

/-- Mirror of `( { lines: [ first ] } ) => first.source_page`; the 0
default stands for the crash on an empty composition, ruled out by the
first-line invariant. -/
def firstPage (s : PShabad) : Nat :=
  match s.lines with
  | [] => 0
  | l :: _ => l.sourcePage

/-- The keys of the groupBy object, in JS iteration order. -/
def pageKeys (shabads : List PShabad) : List Nat :=
  sortK (fun p => p) (firstKeys (shabads.map firstPage))

/-- The groupBy object: per page, the compositions whose first line
sits on it, in input order. -/
def groupByPage (shabads : List PShabad) : List (Nat × List PShabad) :=
  (pageKeys shabads).map (fun p =>
    (p, shabads.filter (fun s => firstPage s == p)))

/-- Decimal digit string of a page number (JS `String( n )`). -/
def decChars (n : Nat) : List Char :=
  if n < 10 then [Char.ofNat (48 + n)]
  else decChars (n / 10) ++ [Char.ofNat (48 + n % 10)]
decreasing_by
  exact Nat.div_lt_self (by omega) (by omega)

/-- JS `String( n )` for a natural number. -/
def decRepr (n : Nat) : String := String.mk (decChars n)

/-- JS `String.prototype.padStart( n, c )`. -/
def padStart (s : String) (n : Nat) (c : Char) : String :=
  String.mk (List.replicate (n - s.length) c ++ s.data)

/-- The page labels written for one source: `lastPage` is the final
key of the groupBy object; every label is padded to its length. -/
def pageLabels (shabads : List PShabad) : List String :=
  match (pageKeys shabads).getLast? with
  | none => []
  | some lastPage =>
    (pageKeys shabads).map (fun p =>
      padStart (decRepr p) (decRepr lastPage).length '0')

/-- Decimal strings are never empty. -/
theorem decChars_len_pos (n : Nat) : 1 ≤ (decChars n).length := by
  rw [decChars]
  split
  · simp
  · simp

/-- Digit count is monotone. -/
theorem decChars_len_mono : ∀ n m, m ≤ n → (decChars m).length ≤ (decChars n).length := by
  intro n
  induction n using Nat.strong_induction_on with
  | _ n ih =>
    intro m hmn
    by_cases hn : n < 10
    · have hm : m < 10 := Nat.lt_of_le_of_lt hmn hn
      have e1 : decChars n = [Char.ofNat (48 + n)] := by
        rw [decChars, if_pos hn]
      have e2 : decChars m = [Char.ofNat (48 + m)] := by
        rw [decChars, if_pos hm]
      rw [e1, e2]
      simp
    · by_cases hm : m < 10
      · have e2 : decChars m = [Char.ofNat (48 + m)] := by
          rw [decChars, if_pos hm]
        rw [e2]
        simpa using decChars_len_pos n
      · have e1 : decChars n = decChars (n / 10) ++ [Char.ofNat (48 + n % 10)] := by
          rw [decChars, if_neg hn]
        have e2 : decChars m = decChars (m / 10) ++ [Char.ofNat (48 + m % 10)] := by
          rw [decChars, if_neg hm]
        rw [e1, e2, List.length_append, List.length_append]
        have hrec := ih (n / 10) (Nat.div_lt_self (by omega) (by omega))
          (m / 10) (Nat.div_le_div_right hmn)
        simpa using hrec

/-- A fold with `max` bounds every element. -/
theorem le_foldr_max : ∀ (l : List Nat) (x : Nat), x ∈ l → x ≤ l.foldr max 0 := by
  intro l
  induction l with
  | nil => intro x hx; cases hx
  | cons a t ih =>
    intro x hx
    rcases List.mem_cons.mp hx with rfl | hx2
    · exact le_max_left _ _
    · exact le_trans (ih x hx2) (le_max_right _ _)

/-- A fold with `max` over a non-empty list is attained. -/
theorem foldr_max_mem : ∀ l : List Nat, l ≠ [] → l.foldr max 0 ∈ l := by
  intro l
  induction l with
  | nil => intro h; exact absurd rfl h
  | cons a t ih =>
    intro _
    rw [List.foldr_cons]
    by_cases haf : t.foldr max 0 ≤ a
    · rw [max_eq_left haf]
      exact List.mem_cons_self a t
    · rw [max_eq_right (le_of_not_le haf)]
      have hte : t ≠ [] := by
        intro h
        rw [h] at haf
        simp at haf
      exact List.mem_cons_of_mem a (ih hte)

/-- The last element of a `Pairwise` ≤ list bounds every element. -/
theorem le_getLast_of_pairwise :
    ∀ l : List Nat, l.Pairwise (fun a b => a ≤ b) →
      ∀ last, l.getLast? = some last → ∀ x ∈ l, x ≤ last := by
  intro l
  induction l with
  | nil => intro _ last hl; cases hl
  | cons a t ih =>
    intro hp last hl x hx
    cases ht : t with
    | nil =>
      subst ht
      rw [List.getLast?_singleton] at hl
      injection hl with hl
      subst hl
      have hxa : x = a := by simpa using hx
      exact Nat.le_of_eq hxa
    | cons b t2 =>
      have hl2 : t.getLast? = some last := by
        rw [ht] at hl ⊢
        rw [List.getLast?_cons_cons] at hl
        exact hl
      rcases List.mem_cons.mp hx with rfl | hx2
      · have hblast : b ∈ t := by rw [ht]; exact List.mem_cons_self b t2
        have hlast_mem : last ∈ t := List.mem_of_mem_getLast? hl2
        exact List.rel_of_pairwise_cons hp hlast_mem
      · exact ih hp.of_cons last hl2 x hx2

/-- C4: page grouping is total — every composition lands in exactly one
page group, keyed by the page number of its first line — and every page
label is zero-padded to the digit length of the source's maximum page
number. -/
theorem pagination_total_padded (shabads : List PShabad)
    (hne : shabads ≠ []) (hlines : ∀ s ∈ shabads, s.lines ≠ []) :
    ((groupByPage shabads).map Prod.fst).Nodup ∧
    (∀ s ∈ shabads, ∀ g ∈ groupByPage shabads, (s ∈ g.2 ↔ g.1 = firstPage s)) ∧
    (∀ s ∈ shabads, firstPage s ∈ (groupByPage shabads).map Prod.fst) ∧
    (∀ s ∈ shabads, ∃ l ls, s.lines = l :: ls ∧ firstPage s = l.sourcePage) ∧
    (∀ lab ∈ pageLabels shabads,
      lab.length = (decRepr ((shabads.map firstPage).foldr max 0)).length) := by
  have hkeys : (groupByPage shabads).map Prod.fst = pageKeys shabads := by
    unfold groupByPage
    rw [List.map_map]
    calc (pageKeys shabads).map (Prod.fst ∘ (fun p =>
          (p, shabads.filter (fun s => firstPage s == p))))
        = (pageKeys shabads).map id := List.map_congr_left (fun x _ => rfl)
    _ = pageKeys shabads := List.map_id _
  have hmemk : ∀ p, p ∈ pageKeys shabads ↔ p ∈ shabads.map firstPage := by
    intro p
    unfold pageKeys
    rw [(sortK_perm (fun p => p) _).mem_iff, mem_firstKeys]
  refine ⟨?_, ?_, ?_, ?_, ?_⟩
  · rw [hkeys]
    exact ((sortK_perm _ _).nodup_iff).mpr (firstKeys_nodup _)
  · intro s hs g hg
    obtain ⟨p, _, hpg⟩ := List.mem_map.mp hg
    subst hpg
    simp only [List.mem_filter]
    constructor
    · rintro ⟨_, hbeq⟩
      exact (eq_of_beq hbeq).symm
    · intro hpe
      refine ⟨hs, ?_⟩
      rw [hpe]
      exact beq_self_eq_true (firstPage s)
  · intro s hs
    rw [hkeys, hmemk]
    exact List.mem_map.mpr ⟨s, hs, rfl⟩
  · intro s hs
    cases hsl : s.lines with
    | nil => exact absurd hsl (hlines s hs)
    | cons l ls =>
      refine ⟨l, ls, rfl, ?_⟩
      unfold firstPage
      rw [hsl]
  · intro lab hlab
    unfold pageLabels at hlab
    cases hlast : (pageKeys shabads).getLast? with
    | none =>
      rw [hlast] at hlab
      cases hlab
    | some last =>
      rw [hlast] at hlab
      obtain ⟨p, hp, hplab⟩ := List.mem_map.mp hlab
      have hpages_ne : shabads.map firstPage ≠ [] := by
        cases shabads with
        | nil => exact absurd rfl hne
        | cons a t => simp
      have hmax_mem : (shabads.map firstPage).foldr max 0 ∈ pageKeys shabads :=
        (hmemk _).mpr (foldr_max_mem _ hpages_ne)
      have hle_last : ∀ x ∈ pageKeys shabads, x ≤ last := by
        have hpw : (pageKeys shabads).Pairwise (fun a b => a ≤ b) :=
          sortK_pairwise (fun p => p) _
        exact le_getLast_of_pairwise _ hpw last hlast
      have hlast_le : last ≤ (shabads.map firstPage).foldr max 0 :=
        le_foldr_max _ last ((hmemk last).mp (List.mem_of_mem_getLast? hlast))
      have heq : last = (shabads.map firstPage).foldr max 0 :=
        Nat.le_antisymm hlast_le (hle_last _ hmax_mem)
      subst hplab
      rw [← heq]
      have hlp : (decRepr p).length ≤ (decRepr last).length :=
        decChars_len_mono last p (hle_last p hp)
      unfold padStart
      show (List.replicate ((decRepr last).length - (decRepr p).length) '0'
          ++ (decRepr p).data).length = (decRepr last).length
      rw [List.length_append, List.length_replicate]
      have hdata : (decRepr p).data.length = (decRepr p).length := rfl
      rw [hdata]
      omega

/-- Compositions spanning pages 3 and 42 of one source. -/
def shabadsEx : List PShabad :=
  [⟨"S1", [⟨3⟩, ⟨4⟩]⟩, ⟨"S2", [⟨42⟩]⟩, ⟨"S3", [⟨3⟩]⟩]

/-- Closed instance of the C4 theorem: max page 42 and min page 3 give
labels 2 digits wide, each composition in exactly one group. -/
theorem pagination_total_padded_witness :
    ((groupByPage shabadsEx).map Prod.fst).Nodup ∧
    (∀ s ∈ shabadsEx, ∀ g ∈ groupByPage shabadsEx, (s ∈ g.2 ↔ g.1 = firstPage s)) ∧
    (∀ s ∈ shabadsEx, firstPage s ∈ (groupByPage shabadsEx).map Prod.fst) ∧
    (∀ s ∈ shabadsEx, ∃ l ls, s.lines = l :: ls ∧ firstPage s = l.sourcePage) ∧
    (∀ lab ∈ pageLabels shabadsEx,
      lab.length = (decRepr ((shabadsEx.map firstPage).foldr max 0)).length) :=
  pagination_total_padded shabadsEx (by decide) (by decide)

/-! ## Model of the per-shabad JSON object (C10) -/

/-- A JS property value during object construction: `undefined` or a
JSON value. -/
inductive JsProp where
  | undef
  | val (v : JValue)

/-- A reference row carrying a display name. -/
structure NamedRow where
  nameEnglish : String

/-- A shabad row as `processLines` destructures it, with its eager
relations. -/
structure ShabadRow where
  id : String
  writerId : Nat
  sourceId : Nat
  sectionId : Nat
  subsectionId : Option Nat
  orderId : Nat
  writer : NamedRow
  «section» : NamedRow
  subsection : Option NamedRow

/-- camelCase to snake_case, as `snakecase-keys` renames keys. -/
def snakeCaseStr (s : String) : String :=
  String.mk (s.data.foldr (fun c acc =>
    if c.isUpper then '_' :: c.toLower :: acc else c :: acc) [])

/-- The spread `{ ...shabad }`: the row's own enumerable properties in
declaration order, eager relations included. -/
def shabadSpread (s : ShabadRow) : List (String × JsProp) :=
  [("id", .val (.jstr s.id)),
   ("writerId", .val (.jnum s.writerId)),
   ("sourceId", .val (.jnum s.sourceId)),
   ("sectionId", .val (.jnum s.sectionId)),
   ("subsectionId", match s.subsectionId with
     | none => .val .jnull
     | some n => .val (.jnum n)),
   ("orderId", .val (.jnum s.orderId)),
   ("writer", .val (.jobj [("nameEnglish", .jstr s.writer.nameEnglish)])),
   ("section", .val (.jobj [("nameEnglish", .jstr s.«section».nameEnglish)])),
   ("subsection", match s.subsection with
     | none => .val .jnull
     | some ss => .val (.jobj [("nameEnglish", .jstr ss.nameEnglish)]))]

/-- The object literal of `processLines`: the spread, the overrides in
source order (join keys to `undefined`, relations to their display
names, `subsection` to `(shabad.subsection && …nameEnglish) || null`),
then `snakeCaseKeys`, then the `lines` key. -/
def shabadObject (s : ShabadRow) (linesVal : JValue) : List (String × JsProp) :=
  let o := shabadSpread s
  let o := jsInsert o "writerId" .undef
  let o := jsInsert o "sourceId" .undef
  let o := jsInsert o "sectionId" .undef
  let o := jsInsert o "orderId" .undef
  let o := jsInsert o "subsectionId" .undef
  let o := jsInsert o "writer" (.val (.jstr s.writer.nameEnglish))
  let o := jsInsert o "section" (.val (.jstr s.«section».nameEnglish))
  let o := jsInsert o "subsection"
    (match s.subsection with
     | none => .val .jnull
     | some ss =>
       if ss.nameEnglish == "" then .val .jnull
       else .val (.jstr ss.nameEnglish))
  (o.map (fun kv => (snakeCaseStr kv.1, kv.2))) ++ [("lines", .val linesVal)]

/-- Modelled from the spec: the JSON serialisation sink (`writeJSON`,
whose source is not under src/) stringifies the object, which per the
spec's §3 drops internal keys from output — `JSON.stringify` omits
properties whose value is `undefined` and keeps explicit `null`s. -/
def emitShabad (s : ShabadRow) (linesVal : JValue) : List (String × JValue) :=
  (shabadObject s linesVal).filterMap (fun kv =>
    match kv.2 with
    | .undef => none
    | .val v => some (kv.1, v))

/-- C10: a composition without a subsection is emitted with an explicit
`subsection: null` (present, not omitted); the join keys `writer_id`,
`source_id`, `section_id`, `subsection_id`, `order_id` never appear;
and `writer` and `section` carry the display names. -/
theorem shabad_emit_nullable_subsection (s : ShabadRow) (linesVal : JValue)
    (hsub : s.subsection = none) :
    ("subsection", JValue.jnull) ∈ emitShabad s linesVal ∧
    (∀ k ∈ (emitShabad s linesVal).map Prod.fst,
      k ∉ ["writer_id", "source_id", "section_id", "subsection_id", "order_id"]) ∧
    ("writer", JValue.jstr s.writer.nameEnglish) ∈ emitShabad s linesVal ∧
    ("section", JValue.jstr s.«section».nameEnglish) ∈ emitShabad s linesVal := by
  obtain ⟨sid, wid, soid, seid, subid, oid, w, sec, sub⟩ := s
  simp only [ShabadRow.subsection] at hsub
  subst hsub
  cases subid <;>
    simp [emitShabad, shabadObject, shabadSpread, jsInsert, snakeCaseStr]

/-- A concrete shabad row with no subsection. -/
def shabadRowEx : ShabadRow :=
  ⟨"DMP", 1, 1, 2, none, 5, ⟨"Guru Nanak Dev Ji"⟩, ⟨"Jap"⟩, none⟩

/-- Closed instance of the C10 theorem at a subsection-less shabad. -/
theorem shabad_emit_nullable_subsection_witness :
    ("subsection", JValue.jnull) ∈ emitShabad shabadRowEx (JValue.jarr []) ∧
    (∀ k ∈ (emitShabad shabadRowEx (JValue.jarr [])).map Prod.fst,
      k ∉ ["writer_id", "source_id", "section_id", "subsection_id", "order_id"]) ∧
    ("writer", JValue.jstr shabadRowEx.writer.nameEnglish)
        ∈ emitShabad shabadRowEx (JValue.jarr []) ∧
    ("section", JValue.jstr shabadRowEx.«section».nameEnglish)
        ∈ emitShabad shabadRowEx (JValue.jarr []) :=
  shabad_emit_nullable_subsection shabadRowEx (JValue.jarr []) rfl
